import Mathlib

/-!
# Verification of `plot_perm_tot.py`

A shallow embedding of the permeation-plotting pipeline
(`src/plot_perm_tot.py`) and proofs of the specification claims.

Modelling conventions:
* floating point `time(ns)` values are modelled as exact rationals `ℚ`
  (no NaN/inf inputs are modelled; the comparisons and the `%6.2f`
  formatting are modelled over `ℚ` with round-half-to-even);
* a `resid` value is kept as its source token (a whitespace-free string);
  the source passes it through `str()` unchanged for integer-looking
  tokens without leading zeros, which covers all claims;
* `pandas.read_csv(csv_file, sep='\s+', header=0)` is modelled as
  whitespace tokenization of the file's lines, skipping blank lines;
  a file with no tokens at all raises `EmptyDataError` (caught by
  `load_data`); a missing required column or a non-numeric time column
  raises an uncaught exception (`KeyError`/`TypeError`); in the source
  the `resid` `KeyError` would only surface later in `save_sel`, but no
  claim depends on that timing;
* `DataFrame.sort_values(by='time(ns)')` uses the default
  `kind='quicksort'`, i.e. `numpy.argsort` with numpy's introsort
  (`npysort` `aquicksort_`: median-of-3 Hoare quicksort with a global
  depth budget `2*msb(n)`, insertion sort for regions of at most 16
  elements and heapsort as depth-exhausted fallback); it is embedded
  index-faithfully below (`npArgsort`), rendering the in-place
  region-sorting recursion as recursion over the region contents
  (disjoint in-place sub-sorts concatenate);
* the file system is a map `String → Option String` and the four
  output files are returned as a path/content list, in write order.
-/

namespace PermLip

/-! ## Data model -/

/-- One input row, restricted to the two columns the pipeline reads
(`time(ns)` and `resid`); other columns are passed through unused by the
source and are dropped here. -/
structure Row where
  time : ℚ
  resid : String
  deriving Repr, DecidableEq, Inhabited

abbrev Table := List Row

/-! ## Tokenization: `pandas.read_csv(..., sep='\s+', header=0, skipinitialspace=True)` -/

/-- Whitespace for the `'\s+'` separator (newlines split lines first). -/
def isWS (c : Char) : Bool := c = ' ' || c = '\t' || c = '\r' || c = '\x0c' || c = '\x0b'

/-- Split a character list at every occurrence of `sep` (empty pieces
kept, as in `str.split('\n')`). -/
def splitOnChar (sep : Char) : List Char → List (List Char)
  | [] => [[]]
  | c :: cs =>
    if c = sep then [] :: splitOnChar sep cs
    else
      match splitOnChar sep cs with
      | [] => [[c]]
      | t :: ts => (c :: t) :: ts

/-- Maximal runs of non-whitespace characters (fuel-bounded recursion;
the fuel is the character count, which bounds the steps). -/
def wsTokensF : ℕ → List Char → List (List Char)
  | 0, _ => []
  | _, [] => []
  | fuel + 1, c :: cs =>
    if isWS c then wsTokensF fuel cs
    else (c :: cs.takeWhile (fun d => !isWS d)) :: wsTokensF fuel (cs.dropWhile (fun d => !isWS d))

/-- Maximal runs of non-whitespace characters of one line. -/
def wsTokens (cs : List Char) : List (List Char) := wsTokensF cs.length cs

/-- Split one line into whitespace-separated tokens. -/
def tokenizeLine (line : List Char) : List String := (wsTokens line).map String.mk

/-- All non-blank lines of the file, tokenized (pandas skips blank lines). -/
def tokenizedRows (content : String) : List (List String) :=
  ((splitOnChar '\n' content.toList).map tokenizeLine).filter (· ≠ [])

/-- The decimal digit character for `d ≤ 9`. -/
def digitChar (d : ℕ) : Char :=
  match d with
  | 0 => '0' | 1 => '1' | 2 => '2' | 3 => '3' | 4 => '4'
  | 5 => '5' | 6 => '6' | 7 => '7' | 8 => '8' | _ => '9'

/-- Decimal digit characters of a natural number (most significant first). -/
def natChars : ℕ → List Char
  | 0 => ['0']
  | n + 1 => go (n + 1) (n + 1)
where
  /-- Auxiliary: `fuel`-bounded base-10 digit extraction. -/
  go : ℕ → ℕ → List Char
  | _, 0 => []
  | 0, _ => []
  | fuel + 1, m + 1 =>
    go fuel ((m + 1) / 10) ++ [digitChar ((m + 1) % 10)]

/-- Decimal rendering of a natural number. -/
def natStr (n : ℕ) : String := String.mk (natChars n)

/-- Parse a non-empty all-digit character list as a natural number. -/
def parseNatDigits (cs : List Char) : Option ℕ :=
  if cs ≠ [] ∧ cs.all Char.isDigit then
    some (cs.foldl (fun a c => 10 * a + (c.toNat - '0'.toNat)) 0)
  else none

/-- Parse a plain decimal literal `[+-]digits[.digits]` as an exact
rational (the float grammar fragment exercised by the data files;
exponent notation is not modelled). -/
def parseRat (s : String) : Option ℚ :=
  let cs := s.toList
  let signed : Bool × List Char :=
    match cs with
    | '-' :: r => (true, r)
    | '+' :: r => (false, r)
    | _ => (false, cs)
  match (signed.2.splitOn '.') with
  | [ip] =>
    (parseNatDigits ip).map (fun n => mkRat (if signed.1 then -(n : ℤ) else n) 1)
  | [ip, fp] =>
    if ip = [] ∧ fp = [] then none
    else
      match parseNatDigits (if ip = [] then ['0'] else ip),
            parseNatDigits (if fp = [] then ['0'] else fp) with
      | some i, some f =>
        let den : ℕ := 10 ^ fp.length
        let num : ℤ := (i : ℤ) * (den : ℤ) + (f : ℤ)
        some (mkRat (if signed.1 then -num else num) den)
      | _, _ => none
  | _ => none

/-- Decidable equality of `Except` results, for evaluating the model on
concrete inputs. -/
instance {ε α : Type} [DecidableEq ε] [DecidableEq α] : DecidableEq (Except ε α)
  | .ok a, .ok b =>
    if h : a = b then .isTrue (by rw [h]) else .isFalse (by intro k; cases k; exact h rfl)
  | .error a, .error b =>
    if h : a = b then .isTrue (by rw [h]) else .isFalse (by intro k; cases k; exact h rfl)
  | .ok _, .error _ => .isFalse (by intro k; cases k)
  | .error _, .ok _ => .isFalse (by intro k; cases k)

/-- Failure modes of the loading stage. `emptyData` is pandas'
`EmptyDataError` (the only one `load_data` catches); the others
propagate as uncaught Python exceptions (traceback, exit status 1). -/
inductive LoadErr
  | emptyData
  | parserErr
  | keyErr
  | typeErr
  deriving Repr, DecidableEq

/-- `pd.read_csv` model: header row plus data rows.  A file with no
tokens at all raises `EmptyDataError`; ragged rows are treated as a
parser error (pandas errors on extra fields; short rows would NaN-fill,
which no claim exercises). -/
def readCsv (content : String) : Except LoadErr (List String × List (List String)) :=
  match tokenizedRows content with
  | [] => .error .emptyData
  | header :: rows =>
    if rows.all (fun r => r.length = header.length) then .ok (header, rows)
    else .error .parserErr

/-- `load_data(csv_file, time_offset)` on the file's contents: parse the
table and keep the rows with `time(ns) > time_offset` (strict). -/
def load_data (content : String) (time_offset : ℚ) : Except LoadErr Table :=
  match readCsv content with
  | .error e => .error e
  | .ok (header, rows) =>
    match header.findIdx? (· = "time(ns)"), header.findIdx? (· = "resid") with
    | some ti, some ri =>
      match rows.mapM (fun r => (parseRat (r.getD ti "")).map
          (fun t => Row.mk t (r.getD ri ""))) with
      | some recs => .ok (recs.filter (fun r => decide (time_offset < r.time)))
      | none => .error .typeErr
    | _, _ => .error .keyErr

/-! ## numpy's argsort (`kind='quicksort'`, npysort introsort)

`sort_values(by='time(ns)')` computes `np.argsort(values)` over the key
column and takes the rows in that index order.  The index array
algorithm (`aquicksort_`) is: while the region holds more than
`SMALL_QUICKSORT = 15 + 1` elements, partition it by a median-of-3
Hoare scheme (consuming one unit of a global depth budget
`2*msb(n)`, falling back to heapsort when the budget is exhausted),
recurse on the smaller side first; regions of at most 16 elements are
insertion sorted.  All operations are region-local, so the in-place
recursion is rendered as recursion over region contents. -/

/-- In-place element swap rendered on lists (indices in bounds in every
reachable call). -/
def lswap (a : List ℕ) (i j : ℕ) : List ℕ :=
  (a.set i (a.getD j 0)).set j (a.getD i 0)

/-- `do ++pi; while (LT(v[*pi], vp));` — first index `≥ i` whose value
is not less than the pivot (a pivot sentinel bounds the scan). -/
def findGE (lt : ℕ → ℕ → Bool) (vp : ℕ) (a : List ℕ) : ℕ → ℕ → ℕ
  | 0, i => i
  | fuel + 1, i => if lt (a.getD i 0) vp then findGE lt vp a fuel (i + 1) else i

/-- `do --pj; while (LT(vp, v[*pj]));` — first index `≤ j` (scanning
down) whose value is not greater than the pivot. -/
def findLE (lt : ℕ → ℕ → Bool) (vp : ℕ) (a : List ℕ) : ℕ → ℕ → ℕ
  | 0, j => j
  | fuel + 1, j => if lt vp (a.getD j 0) then findLE lt vp a fuel (j - 1) else j

/-- The Hoare partition loop: scan from both ends, swap out-of-place
pairs, stop when the cursors cross; returns the array and the left
cursor. -/
def hoareLoop (lt : ℕ → ℕ → Bool) (vp : ℕ) : ℕ → List ℕ → ℕ → ℕ → List ℕ × ℕ
  | 0, a, pi, _ => (a, pi)
  | fuel + 1, a, pi, pj =>
    let pi' := findGE lt vp a a.length (pi + 1)
    let pj' := findLE lt vp a a.length (pj - 1)
    if pj' ≤ pi' then (a, pi')
    else hoareLoop lt vp fuel (lswap a pi' pj') pi' pj'

/-- One `aquicksort_` partition step of a whole region (`pl = 0`,
`pr = m-1`): median-of-3 of first/middle/last, pivot parked at `m-2`,
Hoare loop, final pivot swap; returns the array and the pivot
position. -/
def npPartition (lt : ℕ → ℕ → Bool) (a : List ℕ) : List ℕ × ℕ :=
  let m := a.length
  let pm := (m - 1) / 2
  let a := if lt (a.getD pm 0) (a.getD 0 0) then lswap a pm 0 else a
  let a := if lt (a.getD (m - 1) 0) (a.getD pm 0) then lswap a (m - 1) pm else a
  let a := if lt (a.getD pm 0) (a.getD 0 0) then lswap a pm 0 else a
  let vp := a.getD pm 0
  let a := lswap a pm (m - 2)
  let r := hoareLoop lt vp m a 0 (m - 2)
  (lswap r.1 r.2 (m - 2), r.2)

/-- numpy's small-region insertion sort: left-to-right, shifting while
strictly greater, i.e. each element is inserted after its equals. -/
def insertAfterLE (lt : ℕ → ℕ → Bool) (x : ℕ) : List ℕ → List ℕ
  | [] => [x]
  | y :: ys => if lt x y then x :: y :: ys else y :: insertAfterLE lt x ys

/-- Insertion sort of a whole small region. -/
def insSortL (lt : ℕ → ℕ → Bool) (a : List ℕ) : List ℕ :=
  a.foldl (fun acc x => insertAfterLE lt x acc) []

/-- `aheapsort_`'s sift-down with a hole: `tmp` descends from position
`i` (1-based) through max-children until it dominates, children shifted
up along the way. -/
def siftDn (lt : ℕ → ℕ → Bool) (n tmp : ℕ) : ℕ → ℕ → ℕ → List ℕ → List ℕ
  | 0, i, _, a => a.set (i - 1) tmp
  | fuel + 1, i, j, a =>
    if j ≤ n then
      let j := if j < n && lt (a.getD (j - 1) 0) (a.getD j 0) then j + 1 else j
      if lt tmp (a.getD (j - 1) 0) then
        siftDn lt n tmp fuel j (2 * j) (a.set (i - 1) (a.getD (j - 1) 0))
      else a.set (i - 1) tmp
    else a.set (i - 1) tmp

/-- `aheapsort_` build phase: sift down every internal node, from
`n/2` down to `1`. -/
def heapify (lt : ℕ → ℕ → Bool) (n : ℕ) : ℕ → List ℕ → List ℕ
  | 0, a => a
  | l + 1, a => heapify lt n l (siftDn lt n (a.getD l 0) (n + 1) (l + 1) (2 * (l + 1)) a)

/-- `aheapsort_` extraction phase: repeatedly move the root to the end
of the shrinking heap and sift the displaced last element down. -/
def extractLoop (lt : ℕ → ℕ → Bool) : ℕ → List ℕ → List ℕ
  | 0, a => a
  | 1, a => a
  | k + 2, a =>
    let tmp := a.getD (k + 1) 0
    let a := a.set (k + 1) (a.getD 0 0)
    extractLoop lt (k + 1) (siftDn lt (k + 1) tmp (k + 2) 1 2 a)

/-- numpy's `aheapsort_` of a whole region. -/
def heapSortWhole (lt : ℕ → ℕ → Bool) (a : List ℕ) : List ℕ :=
  extractLoop lt a.length (heapify lt a.length (a.length / 2) a)

/-- The introsort recursion: regions of more than 16 elements are
partitioned (smaller side sorted first, as the explicit stack in the C
code pushes the larger side), threading the global depth budget; on a
zero budget the region is heapsorted; small regions are insertion
sorted.  `gas` bounds the recursion and exceeds every reachable
region size. -/
def introSortSeg (lt : ℕ → ℕ → Bool) : ℕ → ℕ → List ℕ → List ℕ × ℕ
  | 0, d, a => (a, d)
  | gas + 1, d, a =>
    if 16 < a.length then
      match d with
      | 0 => (heapSortWhole lt a, 0)
      | d + 1 =>
        let r := npPartition lt a
        let piv := r.1.getD r.2 0
        let left := r.1.take r.2
        let right := r.1.drop (r.2 + 1)
        if left.length < right.length then
          let l' := introSortSeg lt gas d left
          let r' := introSortSeg lt gas l'.2 right
          (l'.1 ++ piv :: r'.1, r'.2)
        else
          let r' := introSortSeg lt gas d right
          let l' := introSortSeg lt gas r'.2 left
          (l'.1 ++ piv :: r'.1, l'.2)
    else (insSortL lt a, d)

/-- `npy_get_msb`: position of the highest set bit (fuel-bounded
halving; `0` for inputs `0` and `1`). -/
def msbF : ℕ → ℕ → ℕ
  | 0, _ => 0
  | fuel + 1, m => if 2 ≤ m then msbF fuel (m / 2) + 1 else 0

/-- `npy_get_msb(n)`. -/
def npyGetMsb (n : ℕ) : ℕ := msbF n n

/-- numpy introsort of an index array (`depth_limit = npy_get_msb(num) * 2`,
with one extra unit because the C code tests `depth_limit-- < 0` after
the decrement's read). -/
def npIntrosort (lt : ℕ → ℕ → Bool) (a : List ℕ) : List ℕ :=
  (introSortSeg lt (a.length + 1) (2 * npyGetMsb a.length + 1) a).1

/-- `np.argsort(keys, kind='quicksort')`. -/
def npArgsort (keys : List ℚ) : List ℕ :=
  npIntrosort (fun i j => decide (keys.getD i 0 < keys.getD j 0))
    (List.range keys.length)

/-! ## Processor -/

/-- The processed table: sorted rows plus the added
`permeations_tot` column. -/
structure PTable where
  recs : List Row
  counts : List ℕ
  deriving Repr, DecidableEq

/-- `process_data(data)`: `sort_values(by='time(ns)')` (pandas `take`
in `argsort` order) then `[i + 1 for i in range(len(sorted_data))]`. -/
def process_data (t : Table) : PTable :=
  let sorted := (npArgsort (t.map Row.time)).map (fun i => t.getD i default)
  ⟨sorted, (List.range sorted.length).map (· + 1)⟩

/-! ## Exporters -/

/-- Round-half-to-even of the fraction `N / D` to a natural number
(the rounding used when formatting with two fixed decimals). -/
def roundHE (N D : ℕ) : ℕ :=
  let f := N / D
  let r := N % D
  if 2 * r < D then f
  else if D < 2 * r then f + 1
  else if f % 2 = 0 then f else f + 1

/-- Python's `format(x, '6.2f')`: two fixed fractional digits,
right-aligned to a minimum width of 6 with spaces (the magnitude is
rounded as `|num| * 100 / den` half-to-even). -/
def fmt62 (q : ℚ) : String :=
  let neg := q < 0
  let m := roundHE (q.num.natAbs * 100) q.den
  let body := (if neg then "-" else "") ++ natStr (m / 100) ++ "." ++
    (if m % 100 < 10 then "0" else "") ++ natStr (m % 100)
  String.mk (List.replicate (6 - body.length) ' ') ++ body

/-- `' '.join(map(str, l))` (elements are already their `str()`
renderings, see the `Row.resid` convention above). -/
def list2str : List String → String
  | [] => ""
  | [s] => s
  | s :: rest => s ++ " " ++ list2str rest

/-- Output directory naming used by all writers. -/
def cumulPath (dirname flag ext : String) : String :=
  dirname ++ "/permeation_cumul_" ++ flag ++ ext

/-- `save_xvg`: path and contents — one `f"{t:6.2f} {perm:6.2f}\n"`
line per `zip(data['time(ns)'], data['permeations_tot'])` element. -/
def save_xvg (p : PTable) (flag dirname : String) : String × String :=
  (cumulPath dirname flag ".xvg",
    String.join (((p.recs.map Row.time).zip p.counts).map
      (fun tp => fmt62 tp.1 ++ " " ++ fmt62 (tp.2 : ℚ) ++ "\n")))

/-- `save_sel`: path and contents — the literal selection prefix
followed by the space-joined `resid` column (single `write`, no
trailing newline). -/
def save_sel (p : PTable) (flag dirname : String) : String × String :=
  (dirname ++ "/permeation_selec_" ++ flag ++ ".sel",
    "resname SOL TIP3 and resid " ++ list2str (p.recs.map Row.resid))

/-- What `generate_plot` passes to matplotlib: the step-plot series,
title/labels and the axis lower bounds. -/
structure PlotData where
  xs : List ℚ
  ys : List ℕ
  title : String
  xlabel : String
  ylabel : String
  xlo : ℚ
  ylo : ℚ
  deriving Repr, DecidableEq

/-- `generate_plot(data, flag, time_offset, dirname)` rendering data. -/
def generate_plot (p : PTable) (flag : String) (time_offset : ℚ) : PlotData :=
  ⟨p.recs.map Row.time, p.counts,
    "Cumulated Total number of Permeations \n in " ++ flag,
    "time(ns)", "# permeations", time_offset, 0⟩

/-! ## Driver -/

/-- One produced file: a text file or a rendered image. -/
inductive FileData
  | text (s : String)
  | image (p : PlotData)
  deriving Repr, DecidableEq

/-- Command-line arguments after parsing. -/
structure Args where
  csv_file : String
  flag : String
  time_offset : ℚ
  output_dir : String
  deriving Repr, DecidableEq

/-- A file system: contents by path. -/
def FS := String → Option String

/-- `main()`: `handle_args` validation (existence check first, then the
flag check), then load → process → plot/export fan-out.  Errors carry
the exit code and the one-line diagnostic; uncaught exceptions also
terminate with status 1 (traceback).  The result lists the four output
files in write order: PNG, PDF, XVG, SEL. -/
def main (fs : FS) (a : Args) : Except (ℕ × String) (List (String × FileData)) :=
  match fs a.csv_file with
  | none => .error (1, "Error: The file '" ++ a.csv_file ++ "' does not exist.")
  | some content =>
    if a.flag = "" then .error (1, "Error: The 'flag' argument is required.")
    else
      let dirname := if a.output_dir = "" then "." else a.output_dir
      match load_data content a.time_offset with
      | .error .emptyData =>
        .error (1, "Error: The file '" ++ a.csv_file ++
          "' is empty or not a valid CSV file.")
      | .error _ => .error (1, "uncaught exception")
      | .ok table =>
        let p := process_data table
        .ok [(cumulPath dirname a.flag ".png", .image (generate_plot p a.flag a.time_offset)),
             (cumulPath dirname a.flag ".pdf", .image (generate_plot p a.flag a.time_offset)),
             ((save_xvg p a.flag dirname).1, .text (save_xvg p a.flag dirname).2),
             ((save_sel p a.flag dirname).1, .text (save_sel p a.flag dirname).2)]

/-! ## List toolkit -/

theorem getD_eq_getElem_of_lt {α : Type} (l : List α) (d : α) {i : ℕ} (h : i < l.length) :
    l.getD i d = l[i] := by
  simp [List.getD_eq_getElem?_getD, List.getElem?_eq_getElem h]

theorem getD_set_self {α : Type} {l : List α} {i : ℕ} {x d : α} (h : i < l.length) :
    (l.set i x).getD i d = x := by
  rw [getD_eq_getElem_of_lt _ _ (by simpa using h)]
  exact List.getElem_set_self (by simpa using h)

theorem getD_set_ne {α : Type} {l : List α} {i k : ℕ} {x d : α} (h : i ≠ k) :
    (l.set i x).getD k d = l.getD k d := by
  simp [List.getD_eq_getElem?_getD, List.getElem?_set_ne h]

theorem set_getD_self {α : Type} (l : List α) (i : ℕ) (d : α) (h : i < l.length) :
    l.set i (l.getD i d) = l := by
  apply List.ext_getElem (by simp)
  intro k hk hk'
  rcases eq_or_ne i k with rfl | hne
  · rw [List.getElem_set_self, getD_eq_getElem_of_lt _ _ h]
  · rw [List.getElem_set_ne hne]

theorem getLast?_mem_of_eq {α : Type} {l : List α} {c : α} (h : l.getLast? = some c) :
    c ∈ l := by
  induction l with
  | nil => simp at h
  | cons a l ih =>
    rcases l with _ | ⟨b, t⟩
    · simp only [List.getLast?_singleton, Option.some.injEq] at h
      simp [h]
    · rw [List.getLast?_cons_cons] at h
      exact List.mem_cons_of_mem _ (ih h)

theorem cons_set_perm {α : Type} (D : List α) (k : ℕ) (x y : α) (hk : k < D.length) :
    (x :: D.set k y).Perm (y :: D.set k x) := by
  have h1 : D.set k y = D.take k ++ y :: D.drop (k + 1) := by
    rw [List.set_eq_take_append_cons_drop]; simp [hk]
  have h2 : D.set k x = D.take k ++ x :: D.drop (k + 1) := by
    rw [List.set_eq_take_append_cons_drop]; simp [hk]
  rw [h1, h2]
  exact List.Perm.trans (List.Perm.cons x List.perm_middle)
    (List.Perm.trans (List.Perm.swap y x _) (List.Perm.cons y List.perm_middle.symm))

theorem set_set_perm {α : Type} (l : List α) (i j : ℕ) (x y : α)
    (hi : i < l.length) (hj : j < l.length) (hne : i ≠ j) :
    ((l.set i x).set j y).Perm ((l.set i y).set j x) := by
  have main : ∀ (l : List α) (i j : ℕ) (x y : α), i < j → j < l.length →
      ((l.set i x).set j y).Perm ((l.set i y).set j x) := by
    intro l i j x y hij hj
    have hi : i < l.length := Nat.lt_trans hij hj
    have hsx : l.set i x = l.take i ++ x :: l.drop (i + 1) := by
      rw [List.set_eq_take_append_cons_drop]; simp [hi]
    have hsy : l.set i y = l.take i ++ y :: l.drop (i + 1) := by
      rw [List.set_eq_take_append_cons_drop]; simp [hi]
    have hlen : (l.take i).length = i := by simp [List.length_take, Nat.le_of_lt hi]
    have hjlen : ¬ j < (l.take i).length := by omega
    have hd : j - (l.take i).length = (j - i - 1) + 1 := by omega
    have hk : j - i - 1 < (l.drop (i + 1)).length := by
      simp only [List.length_drop]; omega
    rw [hsx, hsy, List.set_append, List.set_append, if_neg hjlen, if_neg hjlen, hd,
      List.set_cons_succ, List.set_cons_succ]
    exact List.Perm.append_left _ (cons_set_perm _ _ _ _ hk)
  rcases Nat.lt_or_ge i j with h | h
  · exact main l i j x y h hj
  · have hji : j < i := by omega
    rw [List.set_comm _ _ _ hne, List.set_comm _ _ _ hne]
    exact main l j i y x hji hi

/-- Swapping two in-bounds entries is a permutation. -/
theorem lswap_perm (a : List ℕ) (i j : ℕ) (hi : i < a.length) (hj : j < a.length) :
    (lswap a i j).Perm a := by
  by_cases h : i = j
  · subst h
    unfold lswap
    rw [List.set_set, set_getD_self _ _ _ hi]
  · unfold lswap
    have h1 : ((a.set i (a.getD j 0)).set j (a.getD i 0)).Perm
        ((a.set i (a.getD i 0)).set j (a.getD j 0)) := set_set_perm a i j _ _ hi hj h
    rwa [set_getD_self _ _ _ hi, set_getD_self _ _ _ hj] at h1

theorem lswap_length (a : List ℕ) (i j : ℕ) : (lswap a i j).length = a.length := by
  simp [lswap]

theorem lswap_getD_fst {a : List ℕ} {i j : ℕ} (hi : i < a.length) (hj : j < a.length) :
    (lswap a i j).getD i 0 = a.getD j 0 := by
  unfold lswap
  rcases eq_or_ne i j with rfl | h
  · exact getD_set_self (by simpa using hi)
  · rw [getD_set_ne (Ne.symm h), getD_set_self hi]

theorem lswap_getD_snd {a : List ℕ} {i j : ℕ} (hi : i < a.length) (hj : j < a.length) :
    (lswap a i j).getD j 0 = a.getD i 0 := by
  unfold lswap
  rw [getD_set_self (by simpa using hj)]

theorem lswap_getD_other {a : List ℕ} {i j k : ℕ} (hik : k ≠ i) (hjk : k ≠ j) :
    (lswap a i j).getD k 0 = a.getD k 0 := by
  unfold lswap
  rw [getD_set_ne (Ne.symm hjk), getD_set_ne (Ne.symm hik)]

/-- Elements produced by an `Option`-valued `mapM` come from elements of
the input. -/
theorem mapM_option_mem {α β : Type} (f : α → Option β) :
    ∀ (l : List α) (res : List β), l.mapM f = some res →
      ∀ b ∈ res, ∃ a ∈ l, f a = some b := by
  intro l
  induction l with
  | nil =>
    intro res h b hb
    simp only [List.mapM_nil, Option.pure_def, Option.some.injEq] at h
    subst h; simp at hb
  | cons a l ih =>
    intro res h b hb
    rw [List.mapM_cons] at h
    rcases hfa : f a with _ | fa <;> rw [hfa] at h
    · simp at h
    · rcases hrest : l.mapM f with _ | rest <;> rw [hrest] at h
      · simp at h
      · simp only [Option.pure_def, Option.bind_eq_bind, Option.some_bind,
          Option.some.injEq] at h
        subst h
        rcases List.mem_cons.mp hb with rfl | hb'
        · exact ⟨a, List.mem_cons_self a l, hfa⟩
        · obtain ⟨a', ha', hfa'⟩ := ih rest hrest b hb'
          exact ⟨a', List.mem_cons_of_mem _ ha', hfa'⟩

/-! ## Character and token facts -/

theorem digitChar_ne_newline (d : ℕ) : digitChar d ≠ '\n' := by
  rcases d with _|_|_|_|_|_|_|_|_|d <;> first | decide | (show '9' ≠ '\n'; decide)

theorem natChars_go_ne_newline :
    ∀ (fuel m : ℕ), ∀ c ∈ natChars.go fuel m, c ≠ '\n' := by
  intro fuel
  induction fuel with
  | zero => intro m c hc; rcases m with _ | m <;> simp [natChars.go] at hc
  | succ fuel ih =>
    intro m c hc
    rcases m with _ | m
    · simp [natChars.go] at hc
    · rw [natChars.go] at hc
      rcases List.mem_append.mp hc with h | h
      · exact ih _ c h
      · rcases List.mem_singleton.mp h with rfl
        exact digitChar_ne_newline _

theorem natChars_ne_newline (n : ℕ) : ∀ c ∈ natChars n, c ≠ '\n' := by
  rcases n with _ | n
  · intro c hc; rcases List.mem_singleton.mp hc with rfl; decide
  · exact natChars_go_ne_newline _ _

theorem natStr_ne_newline (n : ℕ) : ∀ c ∈ (natStr n).data, c ≠ '\n' :=
  natChars_ne_newline n

theorem fmt62_ne_newline (q : ℚ) : ∀ c ∈ (fmt62 q).data, c ≠ '\n' := by
  intro c hc
  unfold fmt62 at hc
  simp only [String.data_append] at hc
  rcases List.mem_append.mp hc with h | h
  · have := List.eq_of_mem_replicate h
    subst this; decide
  · rcases List.mem_append.mp h with h | h
    · rcases List.mem_append.mp h with h | h
      · rcases List.mem_append.mp h with h | h
        · rcases List.mem_append.mp h with h | h
          · split at h <;> simp_all <;> decide
          · exact natStr_ne_newline _ c h
        · simp only [show (".").data = ['.'] from rfl, List.mem_singleton] at h
          subst h; decide
      · split at h <;> simp_all <;> decide
    · exact natStr_ne_newline _ c h

theorem wsTokensF_sound :
    ∀ (fuel : ℕ) (cs : List Char) (t : List Char), t ∈ wsTokensF fuel cs →
      t ≠ [] ∧ (∀ c ∈ t, isWS c = false) ∧ (∀ c ∈ t, c ∈ cs) := by
  intro fuel
  induction fuel with
  | zero => intro cs t h; simp [wsTokensF] at h
  | succ fuel ih =>
    intro cs t h
    match cs with
    | [] => simp [wsTokensF] at h
    | c :: cs =>
      rw [wsTokensF] at h
      by_cases hw : isWS c
      · rw [if_pos hw] at h
        obtain ⟨h1, h2, h3⟩ := ih _ _ h
        exact ⟨h1, h2, fun x hx => List.mem_cons_of_mem _ (h3 x hx)⟩
      · rw [if_neg hw] at h
        rcases List.mem_cons.mp h with rfl | h'
        · refine ⟨by simp, ?_, ?_⟩
          · intro x hx
            rcases List.mem_cons.mp hx with rfl | hx'
            · simpa using hw
            · have := List.all_takeWhile (l := cs) (p := fun d => !isWS d)
              rw [List.all_eq_true] at this
              simpa using this x hx'
          · intro x hx
            rcases List.mem_cons.mp hx with rfl | hx'
            · exact List.mem_cons_self _ _
            · exact List.mem_cons_of_mem _
                ((List.takeWhile_prefix _).sublist.mem hx')
        · obtain ⟨h1, h2, h3⟩ := ih _ _ h'
          exact ⟨h1, h2, fun x hx => List.mem_cons_of_mem _
            ((List.dropWhile_suffix _).sublist.mem (h3 x hx))⟩

theorem splitOnChar_sound (sep : Char) :
    ∀ (cs : List Char) (p : List Char), p ∈ splitOnChar sep cs → ∀ c ∈ p, c ≠ sep := by
  intro cs
  induction cs with
  | nil =>
    intro p hp c hc
    simp only [splitOnChar, List.mem_singleton] at hp
    subst hp; simp at hc
  | cons a cs ih =>
    intro p hp c hc
    rw [splitOnChar] at hp
    by_cases ha : a = sep
    · rw [if_pos ha] at hp
      rcases List.mem_cons.mp hp with rfl | hp'
      · simp at hc
      · exact ih p hp' c hc
    · rw [if_neg ha] at hp
      rcases hsp : splitOnChar sep cs with _ | ⟨t, ts⟩ <;> rw [hsp] at hp
      · rcases List.mem_cons.mp hp with rfl | hp'
        · rcases List.mem_singleton.mp hc with rfl
          exact ha
        · simp at hp'
      · rcases List.mem_cons.mp hp with rfl | hp'
        · rcases List.mem_cons.mp hc with rfl | hc'
          · exact ha
          · exact ih t (by rw [hsp]; exact List.mem_cons_self _ _) c hc'
        · exact ih p (by rw [hsp]; exact List.mem_cons_of_mem _ hp') c hc

/-- Every token of the tokenized table is a nonempty string of
non-whitespace, non-newline characters. -/
theorem token_sound {content : String} {r : List String} {s : String}
    (hr : r ∈ tokenizedRows content) (hs : s ∈ r) :
    s.data ≠ [] ∧ ∀ c ∈ s.data, isWS c = false ∧ c ≠ '\n' := by
  unfold tokenizedRows at hr
  have hr' := (List.mem_filter.mp hr).1
  obtain ⟨line, hline, htok⟩ := List.mem_map.mp hr'
  subst htok
  unfold tokenizeLine at hs
  obtain ⟨t, ht, rfl⟩ := List.mem_map.mp hs
  obtain ⟨h1, h2, h3⟩ := wsTokensF_sound _ _ _ ht
  refine ⟨by simpa using h1, ?_⟩
  intro c hc
  have hct : c ∈ t := by simpa using hc
  exact ⟨h2 c hct, splitOnChar_sound '\n' _ _ hline c (h3 c hct)⟩

/-! ## Loader and driver inversions -/

theorem readCsv_ok {content : String} {header : List String} {rows : List (List String)}
    (h : readCsv content = .ok (header, rows)) :
    tokenizedRows content = header :: rows ∧ ∀ r ∈ rows, r.length = header.length := by
  unfold readCsv at h
  split at h
  · cases h
  · rename_i h0 r0 htok
    split at h
    · rename_i hall
      cases h
      refine ⟨htok, ?_⟩
      intro r hr
      have := (List.all_eq_true.mp hall) r hr
      simpa using this
    · cases h

theorem load_data_ok {content : String} {T : ℚ} {tbl : Table}
    (h : load_data content T = .ok tbl) :
    ∃ header rows ti ri recs,
      tokenizedRows content = header :: rows ∧
      (∀ r ∈ rows, r.length = header.length) ∧
      header.findIdx? (· = "time(ns)") = some ti ∧
      header.findIdx? (· = "resid") = some ri ∧
      rows.mapM (fun r => (parseRat (r.getD ti "")).map
        (fun t => Row.mk t (r.getD ri ""))) = some recs ∧
      tbl = recs.filter (fun r => decide (T < r.time)) := by
  unfold load_data at h
  split at h
  · cases h
  · rename_i header rows hcsv
    obtain ⟨htok, hlen⟩ := readCsv_ok hcsv
    split at h
    · rename_i ti ri hti hri
      split at h
      · rename_i recs hmap
        cases h
        exact ⟨header, rows, ti, ri, recs, htok, hlen, hti, hri, hmap, rfl⟩
      · cases h
    · cases h

/-- Every loaded row's `resid` is a nonempty whitespace-free,
newline-free token of the input file. -/
theorem load_resid_token {content : String} {T : ℚ} {tbl : Table}
    (h : load_data content T = .ok tbl) :
    ∀ row ∈ tbl, row.resid.data ≠ [] ∧ ∀ c ∈ row.resid.data, isWS c = false ∧ c ≠ '\n' := by
  obtain ⟨header, rows, ti, ri, recs, htok, hlen, hti, hri, hmap, htbl⟩ := load_data_ok h
  intro row hrow
  rw [htbl] at hrow
  have hrec : row ∈ recs := List.mem_of_mem_filter hrow
  obtain ⟨r, hr, hfr⟩ := mapM_option_mem _ rows recs hmap row hrec
  rcases hpr : parseRat (r.getD ti "") with _ | t <;> rw [hpr] at hfr
  · cases hfr
  · simp at hfr
    have hresid : row.resid = r.getD ri "" := by
      rw [← hfr]; simp [List.getD_eq_getElem?_getD]
    have hrilt : ri < header.length := by
      obtain ⟨hlt, -, -⟩ := List.findIdx?_eq_some_iff_getElem.mp hri
      exact hlt
    have hrlen : r.length = header.length := hlen r hr
    have hmem : r.getD ri "" ∈ r := by
      rw [getD_eq_getElem_of_lt r "" (by omega)]
      exact List.getElem_mem _
    rw [hresid]
    exact token_sound (by rw [htok]; exact List.mem_cons_of_mem _ hr) hmem

/-- Driver unfolding on the success path. -/
theorem main_ok_of_load {fs : FS} {a : Args} {content : String} {tbl : Table}
    (hfs : fs a.csv_file = some content) (hflag : ¬ a.flag = "")
    (hload : load_data content a.time_offset = .ok tbl) :
    main fs a = .ok
      [(cumulPath (if a.output_dir = "" then "." else a.output_dir) a.flag ".png",
          .image (generate_plot (process_data tbl) a.flag a.time_offset)),
       (cumulPath (if a.output_dir = "" then "." else a.output_dir) a.flag ".pdf",
          .image (generate_plot (process_data tbl) a.flag a.time_offset)),
       ((save_xvg (process_data tbl) a.flag
            (if a.output_dir = "" then "." else a.output_dir)).1,
          .text (save_xvg (process_data tbl) a.flag
            (if a.output_dir = "" then "." else a.output_dir)).2),
       ((save_sel (process_data tbl) a.flag
            (if a.output_dir = "" then "." else a.output_dir)).1,
          .text (save_sel (process_data tbl) a.flag
            (if a.output_dir = "" then "." else a.output_dir)).2)] := by
  unfold main
  rw [hfs]
  simp only [if_neg hflag, hload]

/-! ## Selection-content facts -/

theorem list2str_ne_newline :
    ∀ (l : List String), (∀ s ∈ l, ∀ c ∈ s.data, c ≠ '\n') →
      ∀ c ∈ (list2str l).data, c ≠ '\n' := by
  intro l
  induction l with
  | nil => intro _ c hc; simp [list2str] at hc
  | cons s rest ih =>
    intro h c hc
    rcases rest with _ | ⟨s2, r2⟩
    · exact h s (by simp) c (by simpa [list2str] using hc)
    · have heq : list2str (s :: s2 :: r2) = s ++ " " ++ list2str (s2 :: r2) := rfl
      rw [heq] at hc
      simp only [String.data_append] at hc
      rcases List.mem_append.mp hc with h1 | h2
      · rcases List.mem_append.mp h1 with ha | hb
        · exact h s (by simp) c ha
        · have : c = ' ' := by simpa using hb
          subst this; decide
      · exact ih (fun x hx => h x (List.mem_cons_of_mem _ hx)) c h2

/-- Rows of the processed table either come from the input table or are
the default row (out-of-range index), whose `resid` is empty. -/
theorem process_recs_mem (tbl : Table) :
    ∀ row ∈ (process_data tbl).recs, row ∈ tbl ∨ row = default := by
  intro row hrow
  unfold process_data at hrow
  simp only at hrow
  obtain ⟨i, _, rfl⟩ := List.mem_map.mp hrow
  by_cases hi : i < tbl.length
  · left
    rw [getD_eq_getElem_of_lt _ _ hi]
    exact List.getElem_mem _
  · right
    rw [List.getD_eq_getElem?_getD, List.getElem?_eq_none (by omega : tbl.length ≤ i)]
    rfl

/-! ## Claims C6–C10 -/

/-- C6 counterexample: a file that exists and contains a header but zero
data rows does **not** fail with `EmptyOrInvalidFormatError`; the load
succeeds with an empty table and the pipeline completes. -/
theorem claim_C6_counterexample :
    (tokenizedRows "frame time(ns) resid").length = 1 ∧
    load_data "frame time(ns) resid" 0 = .ok [] ∧
    (main (fun p => if p = "d.csv" then some "frame time(ns) resid" else none)
      ⟨"d.csv", "flagX", 0, ""⟩).isOk = true :=
  ⟨by decide, by decide, by decide⟩

/-- C6 (amended): an input whose tokenization is empty (pandas'
`EmptyDataError`) makes the program print the one-line
`is empty or not a valid CSV file` diagnostic and exit with code 1;
files with a header and zero data rows instead load as an empty table
(see C7), and other malformed tables abort via an uncaught exception. -/
theorem claim_C6 (fs : FS) (a : Args) (content : String)
    (hfs : fs a.csv_file = some content) (hflag : a.flag ≠ "")
    (htok : tokenizedRows content = []) :
    main fs a = .error (1, "Error: The file '" ++ a.csv_file ++
      "' is empty or not a valid CSV file.") := by
  have hload : load_data content a.time_offset = .error .emptyData := by
    unfold load_data readCsv
    rw [htok]
  unfold main
  rw [hfs]
  simp only [if_neg hflag, hload]

theorem claim_C6_witness :
    ((fun _ => some "") : FS) "e.csv" = some "" ∧ ("f" : String) ≠ "" ∧
    tokenizedRows "" = [] ∧
    main (fun _ => some "") ⟨"e.csv", "f", 0, ""⟩ =
      .error (1, "Error: The file 'e.csv' is empty or not a valid CSV file.") :=
  ⟨rfl, by decide, by decide,
    claim_C6 (fun _ => some "") ⟨"e.csv", "f", 0, ""⟩ "" rfl (by decide) (by decide)⟩

/-- Loading a header-only file (with both required columns) yields an
empty table. -/
theorem load_header_only {content : String} {T : ℚ} {hdr : List String} {ti ri : ℕ}
    (htok : tokenizedRows content = [hdr])
    (hti : hdr.findIdx? (· = "time(ns)") = some ti)
    (hri : hdr.findIdx? (· = "resid") = some ri) :
    load_data content T = .ok [] := by
  unfold load_data readCsv
  rw [htok]
  simp only [List.all_nil, if_true, hti, hri]
  rfl

/-- C7: a header-only input (zero data rows) loads as the empty table,
and whenever the filtered table is empty the pipeline completes,
producing the empty plot, an empty `.xvg` and the zero-id `.sel`. -/
theorem claim_C7 (fs : FS) (a : Args) (content : String)
    (hfs : fs a.csv_file = some content) (hflag : a.flag ≠ "") :
    (∀ (hdr : List String) (ti ri : ℕ),
        tokenizedRows content = [hdr] →
        hdr.findIdx? (· = "time(ns)") = some ti →
        hdr.findIdx? (· = "resid") = some ri →
        load_data content a.time_offset = .ok []) ∧
    (load_data content a.time_offset = .ok [] →
        main fs a = .ok
          [(cumulPath (if a.output_dir = "" then "." else a.output_dir) a.flag ".png",
              .image ⟨[], [], "Cumulated Total number of Permeations \n in " ++ a.flag,
                "time(ns)", "# permeations", a.time_offset, 0⟩),
           (cumulPath (if a.output_dir = "" then "." else a.output_dir) a.flag ".pdf",
              .image ⟨[], [], "Cumulated Total number of Permeations \n in " ++ a.flag,
                "time(ns)", "# permeations", a.time_offset, 0⟩),
           (cumulPath (if a.output_dir = "" then "." else a.output_dir) a.flag ".xvg",
              .text ""),
           ((if a.output_dir = "" then "." else a.output_dir) ++
              "/permeation_selec_" ++ a.flag ++ ".sel",
              .text "resname SOL TIP3 and resid ")]) := by
  constructor
  · intro hdr ti ri htok hti hri
    exact load_header_only htok hti hri
  · intro hload
    rw [main_ok_of_load hfs hflag hload]
    rfl

theorem claim_C7_witness :
    main (fun _ => some "time(ns) resid") ⟨"d.csv", "f", 0, ""⟩ = .ok
      [("./permeation_cumul_f.png",
          .image ⟨[], [], "Cumulated Total number of Permeations \n in f",
            "time(ns)", "# permeations", 0, 0⟩),
       ("./permeation_cumul_f.pdf",
          .image ⟨[], [], "Cumulated Total number of Permeations \n in f",
            "time(ns)", "# permeations", 0, 0⟩),
       ("./permeation_cumul_f.xvg", .text ""),
       ("./permeation_selec_f.sel", .text "resname SOL TIP3 and resid ")] := by
  have h := (claim_C7 (fun _ => some "time(ns) resid") ⟨"d.csv", "f", 0, ""⟩
    "time(ns) resid" rfl (by decide)).2
    ((claim_C7 (fun _ => some "time(ns) resid") ⟨"d.csv", "f", 0, ""⟩
      "time(ns) resid" rfl (by decide)).1 ["time(ns)", "resid"] 0 1
      (by decide) (by decide) (by decide))
  exact h

/-- C8: a `csv_file` that does not resolve to an existing file makes the
program exit with code 1 and the `does not exist` diagnostic, and no
output file is produced. -/
theorem claim_C8 (fs : FS) (a : Args) (h : fs a.csv_file = none) :
    main fs a = .error (1, "Error: The file '" ++ a.csv_file ++ "' does not exist.") ∧
    ∀ files, main fs a ≠ .ok files := by
  have h1 : main fs a =
      .error (1, "Error: The file '" ++ a.csv_file ++ "' does not exist.") := by
    unfold main
    rw [h]
  refine ⟨h1, ?_⟩
  intro files hok
  rw [h1] at hok
  cases hok

theorem claim_C8_witness :
    ((fun _ => none) : FS) "d.csv" = none ∧
    main (fun _ => none) ⟨"d.csv", "f", 0, ""⟩ =
      .error (1, "Error: The file 'd.csv' does not exist.") ∧
    ∀ files, main (fun _ => none) ⟨"d.csv", "f", 0, ""⟩ ≠ .ok files :=
  ⟨rfl, (claim_C8 (fun _ => none) ⟨"d.csv", "f", 0, ""⟩ rfl).1,
    (claim_C8 (fun _ => none) ⟨"d.csv", "f", 0, ""⟩ rfl).2⟩

/-- C9: the run is a pure function of the file system and the four
arguments; two runs with identical `csv_file`, `flag`, `time_offset` and
`output_dir` produce identical results, in particular byte-identical
`.xvg` and `.sel` contents. -/
theorem claim_C9 (fs : FS) (a b : Args) (h1 : a.csv_file = b.csv_file)
    (h2 : a.flag = b.flag) (h3 : a.time_offset = b.time_offset)
    (h4 : a.output_dir = b.output_dir) :
    main fs a = main fs b := by
  obtain ⟨ac, af, at', ao⟩ := a
  obtain ⟨bc, bf, bt, bo⟩ := b
  simp only at h1 h2 h3 h4
  rw [h1, h2, h3, h4]

theorem claim_C9_witness :
    (Args.mk "d.csv" "f" 0 "").csv_file = (Args.mk "d.csv" "f" 0 "").csv_file ∧
    main (fun _ => some "time(ns) resid\n1 2\n") (Args.mk "d.csv" "f" 0 "") =
      main (fun _ => some "time(ns) resid\n1 2\n") (Args.mk "d.csv" "f" 0 "") :=
  ⟨rfl, claim_C9 (fun _ => some "time(ns) resid\n1 2\n") _ _ rfl rfl rfl rfl⟩

/-- C10: for a zero-row processed table the `.sel` content is exactly the
literal `resname SOL TIP3 and resid ` (trailing space, no ids), and for
every loaded table the `.sel` content is written without a trailing
newline. -/
theorem claim_C10 (flag dirname content : String) (T : ℚ) (tbl : Table)
    (hload : load_data content T = .ok tbl) :
    ((process_data tbl).recs = [] →
      (save_sel (process_data tbl) flag dirname).2 = "resname SOL TIP3 and resid ") ∧
    (∀ c, ((save_sel (process_data tbl) flag dirname).2).data.getLast? = some c →
      c ≠ '\n') := by
  constructor
  · intro hnil
    unfold save_sel
    rw [hnil]
    rfl
  · intro c hlast
    have hmem := getLast?_mem_of_eq hlast
    unfold save_sel at hmem
    simp only [String.data_append] at hmem
    rcases List.mem_append.mp hmem with h1 | h2
    · have hpre : ∀ x ∈ ("resname SOL TIP3 and resid ").data, x ≠ '\n' := by decide
      exact hpre c h1
    · refine list2str_ne_newline _ ?_ c h2
      intro s hs x hx
      obtain ⟨row, hrow, rfl⟩ := List.mem_map.mp hs
      rcases process_recs_mem tbl row hrow with hmem' | hdef
      · exact ((load_resid_token hload row hmem').2 x hx).2
      · rw [hdef] at hx
        simp [show (default : Row).resid = "" from rfl] at hx

theorem claim_C10_witness :
    load_data "time(ns) resid" 0 = .ok [] ∧
    (((process_data ([] : Table)).recs = [] →
      (save_sel (process_data ([] : Table)) "f" ".").2 = "resname SOL TIP3 and resid ") ∧
    (∀ c, ((save_sel (process_data ([] : Table)) "f" ".").2).data.getLast? = some c →
      c ≠ '\n')) :=
  ⟨by decide, claim_C10 "f" "." "time(ns) resid" 0 [] (by decide)⟩

/-! ## Introsort verification: scans and the Hoare loop -/

theorem irrefl_of_asymm {lt : ℕ → ℕ → Bool}
    (asymm : ∀ x y, lt x y = true → lt y x = false) (x : ℕ) : lt x x = false := by
  rcases h : lt x x with _ | _
  · rfl
  · have := asymm x x h
    rw [this] at h
    cases h

theorem findGE_spec (lt : ℕ → ℕ → Bool) (vp : ℕ) (a : List ℕ) :
    ∀ (fuel i k : ℕ), i ≤ k → lt (a.getD k 0) vp = false → k + 1 ≤ i + fuel →
      i ≤ findGE lt vp a fuel i ∧ findGE lt vp a fuel i ≤ k ∧
      lt (a.getD (findGE lt vp a fuel i) 0) vp = false ∧
      ∀ x, i ≤ x → x < findGE lt vp a fuel i → lt (a.getD x 0) vp = true := by
  intro fuel
  induction fuel with
  | zero => intro i k hik hk hf; omega
  | succ fuel ih =>
    intro i k hik hk hf
    rw [findGE]
    by_cases h : lt (a.getD i 0) vp = true
    · rw [if_pos h]
      have hik' : i ≠ k := by
        intro heq; rw [heq, hk] at h; cases h
      obtain ⟨h1, h2, h3, h4⟩ := ih (i + 1) k (by omega) hk (by omega)
      refine ⟨by omega, h2, h3, ?_⟩
      intro x hx1 hx2
      rcases Nat.eq_or_lt_of_le hx1 with rfl | hx1'
      · exact h
      · exact h4 x hx1' hx2
    · rw [if_neg h]
      exact ⟨Nat.le_refl _, hik, by simpa using h, fun x hx1 hx2 => by omega⟩

theorem findLE_spec (lt : ℕ → ℕ → Bool) (vp : ℕ) (a : List ℕ) :
    ∀ (fuel j k : ℕ), k ≤ j → lt vp (a.getD k 0) = false → j + 1 ≤ k + fuel →
      k ≤ findLE lt vp a fuel j ∧ findLE lt vp a fuel j ≤ j ∧
      lt vp (a.getD (findLE lt vp a fuel j) 0) = false ∧
      ∀ x, findLE lt vp a fuel j < x → x ≤ j → lt vp (a.getD x 0) = true := by
  intro fuel
  induction fuel with
  | zero => intro j k hkj hk hf; omega
  | succ fuel ih =>
    intro j k hkj hk hf
    rw [findLE]
    by_cases h : lt vp (a.getD j 0) = true
    · rw [if_pos h]
      have hjk' : j ≠ k := by
        intro heq; rw [heq, hk] at h; cases h
      have hj1 : 1 ≤ j := by omega
      obtain ⟨h1, h2, h3, h4⟩ := ih (j - 1) k (by omega) hk (by omega)
      refine ⟨h1, by omega, h3, ?_⟩
      intro x hx1 hx2
      rcases Nat.eq_or_lt_of_le hx2 with rfl | hx2'
      · exact h
      · exact h4 x hx1 (by omega)
    · rw [if_neg h]
      exact ⟨hkj, Nat.le_refl _, by simpa using h, fun x hx1 hx2 => by omega⟩

theorem hoareLoop_spec (lt : ℕ → ℕ → Bool)
    (asymm : ∀ x y, lt x y = true → lt y x = false) (vp : ℕ) (m : ℕ) :
    ∀ (fuel : ℕ) (a : List ℕ) (pi pj : ℕ),
      a.length = m → pi < pj → pj ≤ m - 2 → 3 ≤ m →
      a.getD (m - 2) 0 = vp →
      (∀ k, k ≤ pi → lt vp (a.getD k 0) = false) →
      (∀ k, pj ≤ k → k ≤ m - 1 → lt (a.getD k 0) vp = false) →
      pj - pi ≤ fuel →
      (hoareLoop lt vp fuel a pi pj).1.Perm a ∧
      (hoareLoop lt vp fuel a pi pj).1.length = m ∧
      pi + 1 ≤ (hoareLoop lt vp fuel a pi pj).2 ∧
      (hoareLoop lt vp fuel a pi pj).2 ≤ m - 2 ∧
      (hoareLoop lt vp fuel a pi pj).1.getD (m - 2) 0 = vp ∧
      (∀ k, k < (hoareLoop lt vp fuel a pi pj).2 →
        lt vp ((hoareLoop lt vp fuel a pi pj).1.getD k 0) = false) ∧
      (∀ k, (hoareLoop lt vp fuel a pi pj).2 ≤ k → k ≤ m - 1 →
        lt ((hoareLoop lt vp fuel a pi pj).1.getD k 0) vp = false) := by
  intro fuel
  induction fuel with
  | zero => intro a pi pj _ h1 _ _ _ _ _ hf; omega
  | succ fuel ih =>
    intro a pi pj hlen hpij hpj2 hm3 hsent hleft hright hf
    rw [hoareLoop]
    have hirr : lt vp vp = false := irrefl_of_asymm asymm vp
    have hsentR : lt (a.getD (m - 2) 0) vp = false := by rw [hsent]; exact hirr
    obtain ⟨gi1, gi2, gi3, gi4⟩ :=
      findGE_spec lt vp a a.length (pi + 1) (m - 2) (by omega) hsentR (by omega)
    obtain ⟨gj1, gj2, gj3, gj4⟩ :=
      findLE_spec lt vp a a.length (pj - 1) 0 (by omega) (hleft 0 (by omega)) (by omega)
    set pi' := findGE lt vp a a.length (pi + 1) with hpi'
    set pj' := findLE lt vp a a.length (pj - 1) with hpj'
    by_cases hbr : pj' ≤ pi'
    · rw [if_pos hbr]
      refine ⟨List.Perm.refl a, hlen, by omega, gi2, hsent, ?_, ?_⟩
      · intro k hk
        by_cases hkpi : k ≤ pi
        · exact hleft k hkpi
        · exact asymm _ _ (gi4 k (by omega) hk)
      · intro k hk1 hk2
        rcases Nat.eq_or_lt_of_le hk1 with rfl | hk1'
        · exact gi3
        · by_cases hkpj : pj ≤ k
          · exact hright k hkpj hk2
          · exact asymm _ _ (gj4 k (by omega) (by omega))
    · rw [if_neg hbr]
      have hpi'pj' : pi' < pj' := by omega
      have hpj'le : pj' ≤ pj - 1 := gj2
      have hb1 : pi' < a.length := by omega
      have hb2 : pj' < a.length := by omega
      have hlenb : (lswap a pi' pj').length = m := by rw [lswap_length, hlen]
      have hne2i : (m : ℕ) - 2 ≠ pi' := by omega
      have hne2j : (m : ℕ) - 2 ≠ pj' := by omega
      have hsentb : (lswap a pi' pj').getD (m - 2) 0 = vp := by
        rw [lswap_getD_other hne2i hne2j, hsent]
      have hleftb : ∀ k, k ≤ pi' → lt vp ((lswap a pi' pj').getD k 0) = false := by
        intro k hk
        rcases Nat.eq_or_lt_of_le hk with rfl | hk'
        · rw [lswap_getD_fst hb1 hb2]
          exact gj3
        · rw [lswap_getD_other (by omega) (by omega)]
          by_cases hkpi : k ≤ pi
          · exact hleft k hkpi
          · exact asymm _ _ (gi4 k (by omega) hk')
      have hrightb : ∀ k, pj' ≤ k → k ≤ m - 1 →
          lt ((lswap a pi' pj').getD k 0) vp = false := by
        intro k hk1 hk2
        rcases Nat.eq_or_lt_of_le hk1 with rfl | hk1'
        · rw [lswap_getD_snd hb1 hb2]
          exact gi3
        · rw [lswap_getD_other (by omega) (by omega)]
          by_cases hkpj : pj ≤ k
          · exact hright k hkpj hk2
          · exact asymm _ _ (gj4 k (by omega) (by omega))
      obtain ⟨c1, c2, c3, c4, c5, c6, c7⟩ := ih (lswap a pi' pj') pi' pj'
        hlenb hpi'pj' (by omega) hm3 hsentb hleftb hrightb (by omega)
      refine ⟨c1.trans (lswap_perm a pi' pj' hb1 hb2), c2, by omega, c4, c5, c6, c7⟩

/-- One conditional-swap step of the median-of-3 selection. -/
theorem medianStep (lt : ℕ → ℕ → Bool)
    (asymm : ∀ x y, lt x y = true → lt y x = false) (a : List ℕ) (u v : ℕ)
    (hu : u < a.length) (hv : v < a.length) (hne : u ≠ v) :
    (if lt (a.getD u 0) (a.getD v 0) then lswap a u v else a).Perm a ∧
    (if lt (a.getD u 0) (a.getD v 0) then lswap a u v else a).length = a.length ∧
    lt ((if lt (a.getD u 0) (a.getD v 0) then lswap a u v else a).getD u 0)
      ((if lt (a.getD u 0) (a.getD v 0) then lswap a u v else a).getD v 0) = false ∧
    (∀ k, k ≠ u → k ≠ v →
      (if lt (a.getD u 0) (a.getD v 0) then lswap a u v else a).getD k 0 = a.getD k 0) ∧
    (((if lt (a.getD u 0) (a.getD v 0) then lswap a u v else a).getD u 0 = a.getD u 0 ∧
      (if lt (a.getD u 0) (a.getD v 0) then lswap a u v else a).getD v 0 = a.getD v 0) ∨
     ((if lt (a.getD u 0) (a.getD v 0) then lswap a u v else a).getD u 0 = a.getD v 0 ∧
      (if lt (a.getD u 0) (a.getD v 0) then lswap a u v else a).getD v 0 = a.getD u 0)) := by
  by_cases h : lt (a.getD u 0) (a.getD v 0) = true
  · rw [if_pos h]
    refine ⟨lswap_perm a u v hu hv, lswap_length a u v, ?_, ?_, ?_⟩
    · rw [lswap_getD_fst hu hv, lswap_getD_snd hu hv]
      exact asymm _ _ h
    · intro k hk1 hk2
      exact lswap_getD_other hk1 hk2
    · right
      exact ⟨lswap_getD_fst hu hv, lswap_getD_snd hu hv⟩
  · rw [if_neg h]
    exact ⟨List.Perm.refl a, rfl, by simpa using h, fun _ _ _ => rfl, .inl ⟨rfl, rfl⟩⟩

theorem npPartition_spec (lt : ℕ → ℕ → Bool)
    (asymm : ∀ x y, lt x y = true → lt y x = false)
    (letrans : ∀ x y z, lt y x = false → lt z y = false → lt z x = false)
    (a : List ℕ) (h17 : 17 ≤ a.length) :
    (npPartition lt a).1.Perm a ∧ (npPartition lt a).1.length = a.length ∧
    1 ≤ (npPartition lt a).2 ∧ (npPartition lt a).2 ≤ a.length - 2 ∧
    (∀ k, k < (npPartition lt a).2 →
      lt ((npPartition lt a).1.getD ((npPartition lt a).2) 0)
        ((npPartition lt a).1.getD k 0) = false) ∧
    (∀ k, (npPartition lt a).2 < k → k ≤ a.length - 1 →
      lt ((npPartition lt a).1.getD k 0)
        ((npPartition lt a).1.getD ((npPartition lt a).2) 0) = false) := by
  have hirr : ∀ x, lt x x = false := irrefl_of_asymm asymm
  have hpm8 : 8 ≤ (a.length - 1) / 2 := by omega
  have hpmlt : (a.length - 1) / 2 < a.length - 2 := by omega
  obtain ⟨q1, q2, q3, q4, q5⟩ := medianStep lt asymm a ((a.length - 1) / 2) 0
    (by omega) (by omega) (by omega)
  set a1 := if lt (a.getD ((a.length - 1) / 2) 0) (a.getD 0 0)
    then lswap a ((a.length - 1) / 2) 0 else a with ha1
  have hlen1 : a1.length = a.length := q2
  obtain ⟨r1, r2, r3, r4, r5⟩ := medianStep lt asymm a1 (a.length - 1) ((a.length - 1) / 2)
    (by omega) (by omega) (by omega)
  set a2 := if lt (a1.getD (a.length - 1) 0) (a1.getD ((a.length - 1) / 2) 0)
    then lswap a1 (a.length - 1) ((a.length - 1) / 2) else a1 with ha2
  have hlen2 : a2.length = a.length := by rw [r2, hlen1]
  obtain ⟨s1, s2, s3, s4, s5⟩ := medianStep lt asymm a2 ((a.length - 1) / 2) 0
    (by omega) (by omega) (by omega)
  set a3 := if lt (a2.getD ((a.length - 1) / 2) 0) (a2.getD 0 0)
    then lswap a2 ((a.length - 1) / 2) 0 else a2 with ha3
  have hlen3 : a3.length = a.length := by rw [s2, hlen2]
  -- median facts
  have hP1 : lt (a1.getD ((a.length - 1) / 2) 0) (a1.getD 0 0) = false := q3
  have hP2a : lt (a2.getD (a.length - 1) 0) (a2.getD ((a.length - 1) / 2) 0) = false := r3
  have h20 : a2.getD 0 0 = a1.getD 0 0 := r4 0 (by omega) (by omega)
  have hP2b : lt (a2.getD (a.length - 1) 0) (a2.getD 0 0) = false := by
    rw [h20]
    rcases r5 with ⟨hv1, hv2⟩ | ⟨hv1, hv2⟩
    · rw [hv1]
      rw [hv1, hv2] at hP2a
      exact letrans _ _ _ hP1 hP2a
    · rw [hv1]
      exact hP1
  have hP3a : lt (a3.getD ((a.length - 1) / 2) 0) (a3.getD 0 0) = false := s3
  have h3m1 : a3.getD (a.length - 1) 0 = a2.getD (a.length - 1) 0 :=
    s4 (a.length - 1) (by omega) (by omega)
  have hP3b : lt (a3.getD (a.length - 1) 0) (a3.getD ((a.length - 1) / 2) 0) = false := by
    rw [h3m1]
    rcases s5 with ⟨hv1, hv2⟩ | ⟨hv1, hv2⟩
    · rw [hv1]
      exact hP2a
    · rw [hv1]
      exact hP2b
  -- park the pivot at position length - 2
  set vp := a3.getD ((a.length - 1) / 2) 0 with hvp
  set a4 := lswap a3 ((a.length - 1) / 2) (a.length - 2) with ha4
  have hlen4 : a4.length = a.length := by rw [ha4, lswap_length, hlen3]
  have hsent : a4.getD (a.length - 2) 0 = vp := by
    rw [ha4, lswap_getD_snd (by omega) (by omega)]
  have h40 : a4.getD 0 0 = a3.getD 0 0 := by
    rw [ha4, lswap_getD_other (by omega) (by omega)]
  have h4m1 : a4.getD (a.length - 1) 0 = a3.getD (a.length - 1) 0 := by
    rw [ha4, lswap_getD_other (by omega) (by omega)]
  have hleft : ∀ k, k ≤ 0 → lt vp (a4.getD k 0) = false := by
    intro k hk
    have hk0 : k = 0 := by omega
    rw [hk0, h40]
    exact hP3a
  have hright : ∀ k, a.length - 2 ≤ k → k ≤ a.length - 1 →
      lt (a4.getD k 0) vp = false := by
    intro k hk1 hk2
    rcases Nat.eq_or_lt_of_le hk1 with rfl | hk1'
    · rw [hsent]
      exact hirr vp
    · have hk' : k = a.length - 1 := by omega
      rw [hk', h4m1]
      exact hP3b
  obtain ⟨c1, c2, c3, c4, c5, c6, c7⟩ := hoareLoop_spec lt asymm vp a.length a.length a4
    0 (a.length - 2) hlen4 (by omega) (by omega) (by omega) hsent hleft hright (by omega)
  set R := hoareLoop lt vp a.length a4 0 (a.length - 2) with hR
  have hdef : npPartition lt a = (lswap R.1 R.2 (a.length - 2), R.2) := rfl
  rw [hdef]
  have hp1 : 1 ≤ R.2 := c3
  have hp2 : R.2 ≤ a.length - 2 := c4
  have hRlen : R.1.length = a.length := c2
  have hblt : R.2 < R.1.length := by omega
  have hblt2 : a.length - 2 < R.1.length := by omega
  have hperm : (lswap R.1 R.2 (a.length - 2)).Perm a :=
    ((lswap_perm R.1 R.2 (a.length - 2) hblt hblt2).trans c1).trans
      ((((ha4 ▸ lswap_perm a3 ((a.length - 1) / 2) (a.length - 2) (by omega)
        (by omega)).trans s1).trans r1).trans q1)
  have hpivotval : (lswap R.1 R.2 (a.length - 2)).getD R.2 0 = vp := by
    rw [lswap_getD_fst hblt hblt2, c5]
  refine ⟨hperm, by rw [lswap_length, hRlen], hp1, hp2, ?_, ?_⟩
  · intro k hk
    rw [hpivotval, lswap_getD_other (by omega) (by omega)]
    exact c6 k hk
  · intro k hk1 hk2
    rw [hpivotval]
    rcases eq_or_ne k (a.length - 2) with rfl | hkne
    · rw [lswap_getD_snd hblt hblt2]
      exact c7 R.2 (Nat.le_refl _) (by omega)
    · rw [lswap_getD_other (by omega) hkne]
      exact c7 k (by omega) hk2

/-! ## Insertion-sort verification -/

theorem insertAfterLE_perm (lt : ℕ → ℕ → Bool) (x : ℕ) :
    ∀ (l : List ℕ), (insertAfterLE lt x l).Perm (x :: l) := by
  intro l
  induction l with
  | nil => rw [insertAfterLE]
  | cons y ys ih =>
    rw [insertAfterLE]
    by_cases h : lt x y = true
    · rw [if_pos h]
    · rw [if_neg h]
      exact (ih.cons y).trans (List.Perm.swap x y ys)

theorem insertAfterLE_sorted (lt : ℕ → ℕ → Bool)
    (asymm : ∀ x y, lt x y = true → lt y x = false)
    (letrans : ∀ x y z, lt y x = false → lt z y = false → lt z x = false) (x : ℕ) :
    ∀ (l : List ℕ), l.Pairwise (fun u v => lt v u = false) →
      (insertAfterLE lt x l).Pairwise (fun u v => lt v u = false) := by
  intro l
  induction l with
  | nil => intro _; simp [insertAfterLE]
  | cons y ys ih =>
    intro hp
    rcases List.pairwise_cons.mp hp with ⟨hy, hys⟩
    rw [insertAfterLE]
    by_cases h : lt x y = true
    · rw [if_pos h]
      refine List.pairwise_cons.mpr ⟨?_, hp⟩
      intro z hz
      rcases List.mem_cons.mp hz with rfl | hz'
      · exact asymm _ _ h
      · exact letrans x y z (asymm _ _ h) (hy z hz')
    · rw [if_neg h]
      refine List.pairwise_cons.mpr ⟨?_, ih hys⟩
      intro z hz
      have hz' := (insertAfterLE_perm lt x ys).mem_iff.mp hz
      rcases List.mem_cons.mp hz' with rfl | hz''
      · simpa using h
      · exact hy z hz''

theorem insSortL_perm (lt : ℕ → ℕ → Bool) (a : List ℕ) : (insSortL lt a).Perm a := by
  have main : ∀ (l acc : List ℕ),
      (l.foldl (fun acc x => insertAfterLE lt x acc) acc).Perm (acc ++ l) := by
    intro l
    induction l with
    | nil => intro acc; simp
    | cons x l ih =>
      intro acc
      rw [List.foldl_cons]
      refine (ih _).trans ?_
      refine (List.Perm.append_right l (insertAfterLE_perm lt x acc)).trans ?_
      exact List.perm_middle.symm
  simpa [insSortL] using main a []

theorem insSortL_sorted (lt : ℕ → ℕ → Bool)
    (asymm : ∀ x y, lt x y = true → lt y x = false)
    (letrans : ∀ x y z, lt y x = false → lt z y = false → lt z x = false) (a : List ℕ) :
    (insSortL lt a).Pairwise (fun u v => lt v u = false) := by
  have main : ∀ (l acc : List ℕ), acc.Pairwise (fun u v => lt v u = false) →
      (l.foldl (fun acc x => insertAfterLE lt x acc) acc).Pairwise
        (fun u v => lt v u = false) := by
    intro l
    induction l with
    | nil => intro acc h; simpa
    | cons x l ih =>
      intro acc h
      rw [List.foldl_cons]
      exact ih _ (insertAfterLE_sorted lt asymm letrans x acc h)
  exact main a [] (by simp)

/-! ## Heapsort verification: sift-down -/

theorem siftDn_spec (lt : ℕ → ℕ → Bool)
    (asymm : ∀ x y, lt x y = true → lt y x = false)
    (letrans : ∀ x y z, lt y x = false → lt z y = false → lt z x = false)
    (n tmp r : ℕ) :
    ∀ (fuel i : ℕ) (a b : List ℕ),
      b = siftDn lt n tmp fuel i (2 * i) a →
      n ≤ a.length → 1 ≤ r → r ≤ i → i ≤ n → n + 1 ≤ i + fuel →
      (∀ c, 2 ≤ c → c ≤ n → r ≤ c / 2 → c / 2 ≠ i →
        lt (a.getD (c / 2 - 1) 0) (a.getD (c - 1) 0) = false) →
      (2 ≤ i → r ≤ i / 2 → lt (a.getD (i / 2 - 1) 0) tmp = false) →
      (∀ c, (c = 2 * i ∨ c = 2 * i + 1) → c ≤ n → 2 ≤ i → r ≤ i / 2 →
        lt (a.getD (i / 2 - 1) 0) (a.getD (c - 1) 0) = false) →
      b.Perm (a.set (i - 1) tmp) ∧
      b.length = a.length ∧
      (∀ q, n < q → b.getD (q - 1) 0 = a.getD (q - 1) 0) ∧
      (∀ q, 1 ≤ q → q ≤ n → b.getD (q - 1) 0 = tmp ∨
        ∃ q', 1 ≤ q' ∧ q' ≤ n ∧ b.getD (q - 1) 0 = a.getD (q' - 1) 0) ∧
      (∀ c, 2 ≤ c → c ≤ n → r ≤ c / 2 →
        lt (b.getD (c / 2 - 1) 0) (b.getD (c - 1) 0) = false) := by
  intro fuel
  induction fuel with
  | zero => intro i a b hb h1 h2 h3 h4 h5 H1 H2 H3; omega
  | succ fuel ih =>
    intro i a b hb hlen hr1 hri hin hfuel H1 H2 H3
    have hi1 : 1 ≤ i := by omega
    have hisub : i - 1 < a.length := by omega
    rw [siftDn] at hb
    by_cases hleaf : 2 * i ≤ n
    · rw [if_pos hleaf] at hb
      -- resolve the max-child selection
      set jc := if (2 * i < n && lt (a.getD (2 * i - 1) 0) (a.getD (2 * i) 0)) = true
        then 2 * i + 1 else 2 * i with hjc
      have hjcval : jc = 2 * i ∨ jc = 2 * i + 1 := by
        rw [hjc]; split <;> simp
      have hjcn : jc ≤ n := by
        rw [hjc]; split
        · rename_i hcond
          have := (Bool.and_eq_true _ _).mp hcond
          have h2i : (2 * i < n) := by simpa using this.1
          omega
        · exact hleaf
      have hjci : i < jc := by rcases hjcval with h | h <;> omega
      have hjchalf : jc / 2 = i := by rcases hjcval with h | h <;> omega
      have hmaxchild : ∀ c, (c = 2 * i ∨ c = 2 * i + 1) → c ≤ n →
          lt (a.getD (jc - 1) 0) (a.getD (c - 1) 0) = false := by
        intro c hc hcn
        rw [hjc]
        split
        · rename_i hcond
          have hlt := ((Bool.and_eq_true _ _).mp hcond).2
          rcases hc with rfl | rfl
          · simpa using asymm _ _ hlt
          · simpa using irrefl_of_asymm asymm _
        · rename_i hcond
          rcases hc with rfl | rfl
          · simpa using irrefl_of_asymm asymm _
          · have h2i : 2 * i < n := by omega
            have : ¬ lt (a.getD (2 * i - 1) 0) (a.getD (2 * i) 0) = true := by
              intro hl
              exact hcond ((Bool.and_eq_true _ _).mpr ⟨decide_eq_true h2i, hl⟩)
            simpa using this
      rw [show (let j := jc; if lt tmp (a.getD (j - 1) 0) = true
          then siftDn lt n tmp fuel j (2 * j) (a.set (i - 1) (a.getD (j - 1) 0))
          else a.set (i - 1) tmp)
        = (if lt tmp (a.getD (jc - 1) 0) = true
          then siftDn lt n tmp fuel jc (2 * jc) (a.set (i - 1) (a.getD (jc - 1) 0))
          else a.set (i - 1) tmp) from rfl] at hb
      by_cases hdesc : lt tmp (a.getD (jc - 1) 0) = true
      · -- descend: the max child moves up into the hole
        rw [if_pos hdesc] at hb
        have hjcsub : jc - 1 < a.length := by omega
        have hne : i - 1 ≠ jc - 1 := by omega
        have HH1 : ∀ c, 2 ≤ c → c ≤ n → r ≤ c / 2 → c / 2 ≠ jc →
            lt ((a.set (i - 1) (a.getD (jc - 1) 0)).getD (c / 2 - 1) 0)
              ((a.set (i - 1) (a.getD (jc - 1) 0)).getD (c - 1) 0) = false := by
          intro c hc2 hcn hrc hcne
          by_cases hcpi : c / 2 = i
          · have hcc : c = 2 * i ∨ c = 2 * i + 1 := by omega
            rw [show c / 2 - 1 = i - 1 from by omega, getD_set_self hisub,
              getD_set_ne (by omega : (i : ℕ) - 1 ≠ c - 1)]
            exact hmaxchild c hcc hcn
          · by_cases hci : c = i
            · subst hci
              rw [getD_set_ne (by omega : (c : ℕ) - 1 ≠ c / 2 - 1), getD_set_self hisub]
              exact H3 jc hjcval hjcn (by omega) (by omega)
            · rw [getD_set_ne (by omega : (i : ℕ) - 1 ≠ c / 2 - 1),
                getD_set_ne (by omega : (i : ℕ) - 1 ≠ c - 1)]
              exact H1 c hc2 hcn hrc hcpi
        have HH2 : 2 ≤ jc → r ≤ jc / 2 →
            lt ((a.set (i - 1) (a.getD (jc - 1) 0)).getD (jc / 2 - 1) 0) tmp = false := by
          intro hjc2 hrjc
          rw [hjchalf, getD_set_self hisub]
          exact asymm _ _ hdesc
        have HH3 : ∀ c, (c = 2 * jc ∨ c = 2 * jc + 1) → c ≤ n → 2 ≤ jc → r ≤ jc / 2 →
            lt ((a.set (i - 1) (a.getD (jc - 1) 0)).getD (jc / 2 - 1) 0)
              ((a.set (i - 1) (a.getD (jc - 1) 0)).getD (c - 1) 0) = false := by
          intro c hc hcn hjc2 hrjc
          have hc2jc : c / 2 = jc := by rcases hc with rfl | rfl <;> omega
          rw [hjchalf, getD_set_self hisub, getD_set_ne (by omega : (i : ℕ) - 1 ≠ c - 1)]
          have := H1 c (by omega) hcn (by omega) (by omega)
          rwa [hc2jc] at this
        obtain ⟨p1, p2, p3, p4, p5⟩ := ih jc (a.set (i - 1) (a.getD (jc - 1) 0)) b hb
          (by rw [List.length_set]; exact hlen) hr1 (by omega) hjcn (by omega)
          HH1 HH2 HH3
        refine ⟨?_, by rw [p2, List.length_set], ?_, ?_, p5⟩
        · -- permutation bookkeeping for the hole chain
          refine p1.trans ?_
          have hs := set_set_perm a (i - 1) (jc - 1) (a.getD (jc - 1) 0) tmp
            hisub hjcsub hne
          refine hs.trans ?_
          have hx : a.getD (jc - 1) 0 = (a.set (i - 1) tmp).getD (jc - 1) 0 :=
            (getD_set_ne hne).symm
          rw [hx, set_getD_self]
          rw [List.length_set]; exact hjcsub
        · intro q hq
          rw [p3 q hq, getD_set_ne (by omega)]
        · intro q hq1 hq2
          rcases p4 q hq1 hq2 with h | ⟨q', hq'1, hq'2, hq'3⟩
          · exact Or.inl h
          · right
            rcases eq_or_ne q' i with rfl | hq'ne
            · exact ⟨jc, by omega, hjcn, by rwa [getD_set_self hisub] at hq'3⟩
            · exact ⟨q', hq'1, hq'2, by rwa [getD_set_ne (by omega)] at hq'3⟩
      · -- place: `tmp` dominates the max child
        rw [if_neg hdesc] at hb
        subst hb
        refine ⟨List.Perm.refl _, List.length_set _ _ _, ?_, ?_, ?_⟩
        · intro q hq
          rw [getD_set_ne (by omega)]
        · intro q hq1 hq2
          rcases eq_or_ne q i with rfl | hqi
          · exact Or.inl (getD_set_self hisub)
          · exact Or.inr ⟨q, hq1, hq2, getD_set_ne (by omega)⟩
        · intro c hc2 hcn hrc
          by_cases hcpi : c / 2 = i
          · have hcc : c = 2 * i ∨ c = 2 * i + 1 := by omega
            rw [show c / 2 - 1 = i - 1 from by omega, getD_set_self hisub,
              getD_set_ne (by omega : (i : ℕ) - 1 ≠ c - 1)]
            rcases eq_or_ne c jc with rfl | hcjc
            · simpa using hdesc
            · exact letrans _ _ _ (hmaxchild c hcc hcn) (by simpa using hdesc)
          · by_cases hci : c = i
            · subst hci
              rw [getD_set_ne (by omega : (c : ℕ) - 1 ≠ c / 2 - 1), getD_set_self hisub]
              exact H2 hc2 hrc
            · rw [getD_set_ne (by omega : (i : ℕ) - 1 ≠ c / 2 - 1),
                getD_set_ne (by omega : (i : ℕ) - 1 ≠ c - 1)]
              exact H1 c hc2 hcn hrc hcpi
    · -- leaf: no children in range
      rw [if_neg hleaf] at hb
      subst hb
      refine ⟨List.Perm.refl _, List.length_set _ _ _, ?_, ?_, ?_⟩
      · intro q hq
        rw [getD_set_ne (by omega)]
      · intro q hq1 hq2
        rcases eq_or_ne q i with rfl | hqi
        · exact Or.inl (getD_set_self hisub)
        · exact Or.inr ⟨q, hq1, hq2, getD_set_ne (by omega)⟩
      · intro c hc2 hcn hrc
        by_cases hcpi : c / 2 = i
        · omega
        · by_cases hci : c = i
          · subst hci
            rw [getD_set_ne (by omega : (c : ℕ) - 1 ≠ c / 2 - 1), getD_set_self hisub]
            exact H2 hc2 hrc
          · rw [getD_set_ne (by omega : (i : ℕ) - 1 ≠ c / 2 - 1),
              getD_set_ne (by omega : (i : ℕ) - 1 ≠ c - 1)]
            exact H1 c hc2 hcn hrc hcpi

/-! ## Heapsort verification: build, extract, and the main theorem -/

theorem heapify_spec (lt : ℕ → ℕ → Bool)
    (asymm : ∀ x y, lt x y = true → lt y x = false)
    (letrans : ∀ x y z, lt y x = false → lt z y = false → lt z x = false) (n : ℕ) :
    ∀ (l : ℕ) (a : List ℕ), n ≤ a.length → 2 * l ≤ n →
      (∀ c, 2 ≤ c → c ≤ n → l < c / 2 →
        lt (a.getD (c / 2 - 1) 0) (a.getD (c - 1) 0) = false) →
      (heapify lt n l a).Perm a ∧ (heapify lt n l a).length = a.length ∧
      (∀ q, n < q → (heapify lt n l a).getD (q - 1) 0 = a.getD (q - 1) 0) ∧
      (∀ c, 2 ≤ c → c ≤ n →
        lt ((heapify lt n l a).getD (c / 2 - 1) 0)
          ((heapify lt n l a).getD (c - 1) 0) = false) := by
  intro l
  induction l with
  | zero =>
    intro a hlen _ hpre
    rw [heapify]
    exact ⟨List.Perm.refl a, rfl, fun _ _ => rfl,
      fun c hc2 hcn => hpre c hc2 hcn (by omega)⟩
  | succ l ih =>
    intro a hlen hl2 hpre
    rw [heapify]
    have hsub : l + 1 ≤ n := by omega
    obtain ⟨p1, p2, p3, p4, p5⟩ := siftDn_spec lt asymm letrans n (a.getD l 0) (l + 1)
      (n + 1) (l + 1) a _ rfl hlen (by omega) (Nat.le_refl _) hsub (by omega)
      (fun c hc2 hcn hrc hcne => hpre c hc2 hcn (by omega))
      (fun h2 hr2 => by omega)
      (fun c hc hcn h2 hr2 => by omega)
    obtain ⟨q1, q2, q3, q4⟩ := ih (siftDn lt n (a.getD l 0) (n + 1) (l + 1) (2 * (l + 1)) a)
      (by rw [p2]; exact hlen) (by omega)
      (fun c hc2 hcn hlc => p5 c hc2 hcn (by omega))
    refine ⟨?_, by rw [q2, p2], ?_, q4⟩
    · refine q1.trans (p1.trans ?_)
      rw [show (l + 1) - 1 = l from by omega, set_getD_self a l 0 (by omega)]
    · intro q hq
      rw [q3 q hq, p3 q hq]

theorem heap_root_max (lt : ℕ → ℕ → Bool)
    (asymm : ∀ x y, lt x y = true → lt y x = false)
    (letrans : ∀ x y z, lt y x = false → lt z y = false → lt z x = false)
    (n : ℕ) (a : List ℕ)
    (hheap : ∀ c, 2 ≤ c → c ≤ n → lt (a.getD (c / 2 - 1) 0) (a.getD (c - 1) 0) = false) :
    ∀ j, 1 ≤ j → j ≤ n → lt (a.getD 0 0) (a.getD (j - 1) 0) = false := by
  intro j
  induction j using Nat.strong_induction_on with
  | _ j ih =>
    intro h1 hn
    rcases Nat.eq_or_lt_of_le h1 with rfl | h1'
    · exact irrefl_of_asymm asymm _
    · have hpar := hheap j (by omega) hn
      have hih := ih (j / 2) (by omega) (by omega) (by omega)
      exact letrans _ _ _ hpar hih

theorem extractLoop_spec (lt : ℕ → ℕ → Bool)
    (asymm : ∀ x y, lt x y = true → lt y x = false)
    (letrans : ∀ x y z, lt y x = false → lt z y = false → lt z x = false) (N : ℕ) :
    ∀ (k : ℕ) (a : List ℕ), a.length = N → k ≤ N →
      (∀ c, 2 ≤ c → c ≤ k → lt (a.getD (c / 2 - 1) 0) (a.getD (c - 1) 0) = false) →
      (∀ p q, k < p → p < q → q ≤ N → lt (a.getD (q - 1) 0) (a.getD (p - 1) 0) = false) →
      (∀ x y, 1 ≤ x → x ≤ k → k < y → y ≤ N → lt (a.getD (y - 1) 0) (a.getD (x - 1) 0) = false) →
      (extractLoop lt k a).Perm a ∧ (extractLoop lt k a).length = N ∧
      (∀ p q, 1 ≤ p → p < q → q ≤ N →
        lt ((extractLoop lt k a).getD (q - 1) 0) ((extractLoop lt k a).getD (p - 1) 0) = false) := by
  intro k
  induction k using Nat.strong_induction_on with
  | _ k ihs =>
    match k with
    | 0 =>
      intro a hlen _ _ hsorted _
      rw [extractLoop]
      exact ⟨List.Perm.refl a, hlen, fun p q hp hpq hq => hsorted p q (by omega) hpq hq⟩
    | 1 =>
      intro a hlen _ _ hsorted hcross
      rw [extractLoop]
      refine ⟨List.Perm.refl a, hlen, ?_⟩
      intro p q hp hpq hq
      rcases Nat.eq_or_lt_of_le hp with rfl | hp'
      · exact hcross 1 q (by omega) (by omega) (by omega) hq
      · exact hsorted p q (by omega) hpq hq
    | k + 2 =>
      intro a hlen hkN hheap hsorted hcross
      rw [extractLoop]
      have hk1len : k + 1 < a.length := by omega
      have h0len : 0 < a.length := by omega
      -- the root is the maximum of the heap
      have hmax := heap_root_max lt asymm letrans (k + 2) a hheap
      have ha1len : (a.set (k + 1) (a.getD 0 0)).length = N := by
        rw [List.length_set]; exact hlen
      -- precondition: the shrunk array is a heap away from the root hole
      have hpre1 : ∀ c, 2 ≤ c → c ≤ k + 1 → (1 : ℕ) ≤ c / 2 → c / 2 ≠ 1 →
          lt ((a.set (k + 1) (a.getD 0 0)).getD (c / 2 - 1) 0)
            ((a.set (k + 1) (a.getD 0 0)).getD (c - 1) 0) = false := by
        intro c hc2 hcn hrc hcne
        rw [getD_set_ne (by omega), getD_set_ne (by omega)]
        exact hheap c hc2 (by omega)
      -- sift the displaced last element down from the root
      obtain ⟨p1, p2, p3, p4, p5⟩ := siftDn_spec lt asymm letrans (k + 1)
        (a.getD (k + 1) 0) 1 (k + 2) 1 (a.set (k + 1) (a.getD 0 0)) _ rfl
        (by omega) (Nat.le_refl _) (Nat.le_refl _) (by omega) (by omega)
        hpre1 (fun h2 _ => by omega) (fun c hc hcn h2 _ => by omega)
      have hp3q : ∀ y, k + 2 ≤ y → y ≤ N →
          (siftDn lt (k + 1) (a.getD (k + 1) 0) (k + 2) 1 2
            (a.set (k + 1) (a.getD 0 0))).getD (y - 1) 0 =
          (a.set (k + 1) (a.getD 0 0)).getD (y - 1) 0 := by
        intro y hy1 hy2
        exact p3 y (by omega)
      -- the new suffix, positions k+2 .. N, is sorted
      have hsorted' : ∀ p q, k + 1 < p → p < q → q ≤ N →
          lt ((siftDn lt (k + 1) (a.getD (k + 1) 0) (k + 2) 1 2
              (a.set (k + 1) (a.getD 0 0))).getD (q - 1) 0)
            ((siftDn lt (k + 1) (a.getD (k + 1) 0) (k + 2) 1 2
              (a.set (k + 1) (a.getD 0 0))).getD (p - 1) 0) = false := by
        intro p q hp hpq hq
        rcases Nat.eq_or_lt_of_le (show k + 2 ≤ p from by omega) with rfl | hp'
        · -- the new last heap slot holds the old root
          rw [hp3q (k + 2) (by omega) (by omega), hp3q q (by omega) hq]
          rw [show (k : ℕ) + 2 - 1 = k + 1 from by omega, getD_set_self hk1len]
          rw [getD_set_ne (by omega)]
          exact hcross 1 q (by omega) (by omega) (by omega) hq
        · rw [hp3q p (by omega) (by omega), hp3q q (by omega) hq,
            getD_set_ne (by omega), getD_set_ne (by omega)]
          exact hsorted p q (by omega) hpq hq
      -- every element left in the heap is bounded by the new suffix
      have hcross' : ∀ x y, 1 ≤ x → x ≤ k + 1 → k + 1 < y → y ≤ N →
          lt ((siftDn lt (k + 1) (a.getD (k + 1) 0) (k + 2) 1 2
              (a.set (k + 1) (a.getD 0 0))).getD (y - 1) 0)
            ((siftDn lt (k + 1) (a.getD (k + 1) 0) (k + 2) 1 2
              (a.set (k + 1) (a.getD 0 0))).getD (x - 1) 0) = false := by
        intro x y hx1 hxk hky hyN
        have hyval := hp3q y (by omega) hyN
        rcases p4 x hx1 (by omega) with hxv | ⟨x', hx'1, hx'2, hxv⟩
        · -- the heap slot holds the displaced last element
          rw [hxv, hyval]
          rcases Nat.eq_or_lt_of_le (show k + 2 ≤ y from by omega) with rfl | hky'
          · rw [show (k : ℕ) + 2 - 1 = k + 1 from by omega, getD_set_self hk1len]
            exact hmax (k + 2) (by omega) (by omega)
          · rw [getD_set_ne (by omega)]
            exact hcross (k + 2) y (by omega) (by omega) (by omega) hyN
        · -- the heap slot holds an old heap element
          have hxv' : (a.set (k + 1) (a.getD 0 0)).getD (x' - 1) 0 =
              if x' = k + 2 then a.getD 0 0 else a.getD (x' - 1) 0 := by
            rcases eq_or_ne x' (k + 2) with rfl | hne
            · rw [if_pos rfl, show (k : ℕ) + 2 - 1 = k + 1 from by omega,
                getD_set_self hk1len]
            · rw [if_neg hne, getD_set_ne (by omega)]
          rw [hxv, hxv', hyval]
          rcases eq_or_ne x' (k + 2) with rfl | hne
          · rw [if_pos rfl]
            rcases Nat.eq_or_lt_of_le (show k + 2 ≤ y from by omega) with rfl | hky'
            · rw [show (k : ℕ) + 2 - 1 = k + 1 from by omega, getD_set_self hk1len]
              exact irrefl_of_asymm asymm _
            · rw [getD_set_ne (by omega)]
              have h01 := hmax 1 (by omega) (by omega)
              exact letrans _ _ _ (by simpa using h01)
                (hcross 1 y (by omega) (by omega) (by omega) hyN)
          · rw [if_neg hne]
            rcases Nat.eq_or_lt_of_le (show k + 2 ≤ y from by omega) with rfl | hky'
            · rw [show (k : ℕ) + 2 - 1 = k + 1 from by omega, getD_set_self hk1len]
              exact hmax x' (by omega) (by omega)
            · rw [getD_set_ne (by omega)]
              exact hcross x' y (by omega) (by omega) (by omega) hyN
      obtain ⟨q1, q2, q3⟩ := ihs (k + 1) (by omega)
        (siftDn lt (k + 1) (a.getD (k + 1) 0) (k + 2) 1 2 (a.set (k + 1) (a.getD 0 0)))
        (by rw [p2]; exact ha1len) (by omega)
        (fun c hc2 hcn => p5 c hc2 hcn (by omega)) hsorted' hcross'
      refine ⟨?_, q2, q3⟩
      refine q1.trans ?_
      refine p1.trans ?_
      have hlsw : ((a.set (k + 1) (a.getD 0 0)).set (1 - 1) (a.getD (k + 1) 0)) =
          lswap a (k + 1) 0 := rfl
      rw [hlsw]
      exact lswap_perm a (k + 1) 0 hk1len h0len

theorem heapSortWhole_spec (lt : ℕ → ℕ → Bool)
    (asymm : ∀ x y, lt x y = true → lt y x = false)
    (letrans : ∀ x y z, lt y x = false → lt z y = false → lt z x = false) (a : List ℕ) :
    (heapSortWhole lt a).Perm a ∧
    (∀ p q, p < q → q < a.length →
      lt ((heapSortWhole lt a).getD q 0) ((heapSortWhole lt a).getD p 0) = false) := by
  obtain ⟨h1, h2, h3, h4⟩ := heapify_spec lt asymm letrans a.length (a.length / 2) a
    (Nat.le_refl _) (by omega) (fun c hc2 hcn hlc => by omega)
  obtain ⟨e1, e2, e3⟩ := extractLoop_spec lt asymm letrans a.length a.length
    (heapify lt a.length (a.length / 2) a) (by rw [h2]) (Nat.le_refl _)
    h4 (fun p q hp hpq hq => by omega) (fun x y hx1 hxk hky hyN => by omega)
  rw [heapSortWhole]
  refine ⟨e1.trans h1, ?_⟩
  intro p q hpq hq
  have := e3 (p + 1) (q + 1) (by omega) (by omega) (by omega)
  simpa using this

/-! ## Introsort: the recursion -/

theorem introSortSeg_spec (lt : ℕ → ℕ → Bool)
    (asymm : ∀ x y, lt x y = true → lt y x = false)
    (letrans : ∀ x y z, lt y x = false → lt z y = false → lt z x = false) :
    ∀ (gas d : ℕ) (a : List ℕ), a.length ≤ gas →
      (introSortSeg lt gas d a).1.Perm a ∧
      (introSortSeg lt gas d a).1.Pairwise (fun x y => lt y x = false) := by
  intro gas
  induction gas with
  | zero =>
    intro d a hlen
    have ha : a = [] := List.length_eq_zero.mp (by omega)
    subst ha
    rw [introSortSeg]
    exact ⟨List.Perm.refl _, List.Pairwise.nil⟩
  | succ gas ih =>
    intro d a hlen
    have insCase : ¬ 16 < a.length →
        (introSortSeg lt (gas + 1) d a).1.Perm a ∧
        (introSortSeg lt (gas + 1) d a).1.Pairwise (fun x y => lt y x = false) := by
      intro h16
      rcases d with _ | d <;>
        · rw [introSortSeg, if_neg h16]
          exact ⟨insSortL_perm lt a, insSortL_sorted lt asymm letrans a⟩
    by_cases h16 : 16 < a.length
    · rcases d with _ | d
      · rw [introSortSeg, if_pos h16]
        obtain ⟨hp, hs⟩ := heapSortWhole_spec lt asymm letrans a
        refine ⟨hp, ?_⟩
        rw [List.pairwise_iff_getElem]
        intro i j hi hj hij
        have := hs i j hij (by rwa [hp.length_eq] at hj)
        rwa [getD_eq_getElem_of_lt _ _ hj, getD_eq_getElem_of_lt _ _ hi] at this
      · rw [introSortSeg, if_pos h16]
        obtain ⟨n1, n2, n3, n4, n5, n6⟩ := npPartition_spec lt asymm letrans a (by omega)
        have hplt : (npPartition lt a).2 < (npPartition lt a).1.length := by omega
        have hpiv : (npPartition lt a).1.getD (npPartition lt a).2 0 =
            (npPartition lt a).1[(npPartition lt a).2] :=
          getD_eq_getElem_of_lt _ _ hplt
        have hdecomp : (npPartition lt a).1.take (npPartition lt a).2 ++
            (npPartition lt a).1.getD (npPartition lt a).2 0 ::
            (npPartition lt a).1.drop ((npPartition lt a).2 + 1) = (npPartition lt a).1 := by
          rw [hpiv, ← List.drop_eq_getElem_cons hplt, List.take_append_drop]
        have hleftlen : ((npPartition lt a).1.take (npPartition lt a).2).length ≤ gas := by
          rw [List.length_take]
          omega
        have hrightlen : ((npPartition lt a).1.drop ((npPartition lt a).2 + 1)).length
            ≤ gas := by
          rw [List.length_drop]
          omega
        have hrightval : ∀ y ∈ (npPartition lt a).1.drop ((npPartition lt a).2 + 1),
            lt y ((npPartition lt a).1.getD (npPartition lt a).2 0) = false := by
          intro y hy
          obtain ⟨j, hjl, hjv⟩ := List.mem_iff_getElem.mp hy
          rw [List.getElem_drop] at hjv
          have hjl' : j < (npPartition lt a).1.length - ((npPartition lt a).2 + 1) := by
            simpa using hjl
          have hk := n6 ((npPartition lt a).2 + 1 + j) (by omega) (by omega)
          rw [getD_eq_getElem_of_lt _ _ (by omega)] at hk
          rwa [hjv] at hk
        have hleftval : ∀ x ∈ (npPartition lt a).1.take (npPartition lt a).2,
            lt ((npPartition lt a).1.getD (npPartition lt a).2 0) x = false := by
          intro x hx
          obtain ⟨j, hjl, hjv⟩ := List.mem_iff_getElem.mp hx
          have hjl' : j < (npPartition lt a).2 ∧ j < (npPartition lt a).1.length := by
            simpa using hjl
          rw [List.getElem_take] at hjv
          have hk := n5 j hjl'.1
          rw [getD_eq_getElem_of_lt _ _ hjl'.2] at hk
          rwa [hjv] at hk
        have glue : ∀ (l1 r1 : List ℕ),
            l1.Perm ((npPartition lt a).1.take (npPartition lt a).2) →
            l1.Pairwise (fun x y => lt y x = false) →
            r1.Perm ((npPartition lt a).1.drop ((npPartition lt a).2 + 1)) →
            r1.Pairwise (fun x y => lt y x = false) →
            (l1 ++ (npPartition lt a).1.getD (npPartition lt a).2 0 :: r1).Perm a ∧
            (l1 ++ (npPartition lt a).1.getD (npPartition lt a).2 0 :: r1).Pairwise
              (fun x y => lt y x = false) := by
          intro l1 r1 hl1 hl2 hr1 hr2
          constructor
          · refine (List.Perm.append hl1 (List.Perm.cons _ hr1)).trans ?_
            rw [hdecomp]
            exact n1
          · rw [List.pairwise_append]
            refine ⟨hl2, ?_, ?_⟩
            · rw [List.pairwise_cons]
              refine ⟨?_, hr2⟩
              intro y hy
              exact hrightval y (hr1.mem_iff.mp hy)
            · intro x hx y hy
              have hxv := hleftval x (hl1.mem_iff.mp hx)
              rcases List.mem_cons.mp hy with rfl | hy'
              · exact hxv
              · exact letrans _ _ _ hxv (hrightval y (hr1.mem_iff.mp hy'))
        by_cases hbr : ((npPartition lt a).1.take (npPartition lt a).2).length <
            ((npPartition lt a).1.drop ((npPartition lt a).2 + 1)).length
        · rw [if_pos hbr]
          obtain ⟨la, lb⟩ := ih d ((npPartition lt a).1.take (npPartition lt a).2) hleftlen
          obtain ⟨ra, rb⟩ := ih
            (introSortSeg lt gas d ((npPartition lt a).1.take (npPartition lt a).2)).2
            ((npPartition lt a).1.drop ((npPartition lt a).2 + 1)) hrightlen
          exact glue _ _ la lb ra rb
        · rw [if_neg hbr]
          obtain ⟨ra, rb⟩ := ih d ((npPartition lt a).1.drop ((npPartition lt a).2 + 1))
            hrightlen
          obtain ⟨la, lb⟩ := ih
            (introSortSeg lt gas d ((npPartition lt a).1.drop ((npPartition lt a).2 + 1))).2
            ((npPartition lt a).1.take (npPartition lt a).2) hleftlen
          exact glue _ _ la lb ra rb
    · exact insCase h16

theorem npIntrosort_spec (lt : ℕ → ℕ → Bool)
    (asymm : ∀ x y, lt x y = true → lt y x = false)
    (letrans : ∀ x y z, lt y x = false → lt z y = false → lt z x = false) (a : List ℕ) :
    (npIntrosort lt a).Perm a ∧
    (npIntrosort lt a).Pairwise (fun x y => lt y x = false) :=
  introSortSeg_spec lt asymm letrans (a.length + 1) (2 * npyGetMsb a.length + 1) a
    (by omega)

/-! ## `npArgsort`: the key comparator instance -/

theorem npArgsort_perm (keys : List ℚ) :
    (npArgsort keys).Perm (List.range keys.length) := by
  have asymm : ∀ x y, (fun i j => decide (keys.getD i 0 < keys.getD j 0)) x y = true →
      (fun i j => decide (keys.getD i 0 < keys.getD j 0)) y x = false := by
    intro x y h
    simp only [decide_eq_true_eq] at h
    simpa [decide_eq_false_iff_not] using not_lt_of_gt h
  have letrans : ∀ x y z,
      (fun i j => decide (keys.getD i 0 < keys.getD j 0)) y x = false →
      (fun i j => decide (keys.getD i 0 < keys.getD j 0)) z y = false →
      (fun i j => decide (keys.getD i 0 < keys.getD j 0)) z x = false := by
    intro x y z h1 h2
    simp only [decide_eq_false_iff_not, not_lt] at h1 h2 ⊢
    exact le_trans h1 h2
  have := (npIntrosort_spec _ asymm letrans (List.range keys.length)).1
  simpa [npArgsort] using this

theorem npArgsort_sorted (keys : List ℚ) :
    (npArgsort keys).Pairwise (fun i j => keys.getD i 0 ≤ keys.getD j 0) := by
  have asymm : ∀ x y, (fun i j => decide (keys.getD i 0 < keys.getD j 0)) x y = true →
      (fun i j => decide (keys.getD i 0 < keys.getD j 0)) y x = false := by
    intro x y h
    simp only [decide_eq_true_eq] at h
    simpa [decide_eq_false_iff_not] using not_lt_of_gt h
  have letrans : ∀ x y z,
      (fun i j => decide (keys.getD i 0 < keys.getD j 0)) y x = false →
      (fun i j => decide (keys.getD i 0 < keys.getD j 0)) z y = false →
      (fun i j => decide (keys.getD i 0 < keys.getD j 0)) z x = false := by
    intro x y z h1 h2
    simp only [decide_eq_false_iff_not, not_lt] at h1 h2 ⊢
    exact le_trans h1 h2
  have := (npIntrosort_spec _ asymm letrans (List.range keys.length)).2
  refine List.Pairwise.imp ?_ this
  intro i j h
  simp only [decide_eq_false_iff_not, not_lt] at h
  exact h

/-! ## The processed table -/

theorem range_map_getD {α : Type} (l : List α) (d : α) :
    (List.range l.length).map (fun i => l.getD i d) = l := by
  apply List.ext_getElem (by simp)
  intro i h1 h2
  rw [List.getElem_map, List.getElem_range, getD_eq_getElem_of_lt _ _ h2]

/-- The processed rows are a permutation of the filtered table. -/
theorem process_recs_perm (tbl : Table) : (process_data tbl).recs.Perm tbl := by
  unfold process_data
  simp only
  have hp := npArgsort_perm (tbl.map Row.time)
  rw [List.length_map] at hp
  have := hp.map (fun i => tbl.getD i default)
  rwa [range_map_getD tbl default] at this

/-- The processed rows are sorted by time (non-decreasing). -/
theorem process_times_sorted (tbl : Table) :
    (process_data tbl).recs.Pairwise (fun x y => x.time ≤ y.time) := by
  unfold process_data
  simp only
  rw [List.pairwise_map]
  have hs := npArgsort_sorted (tbl.map Row.time)
  have hmem : ∀ i ∈ npArgsort (tbl.map Row.time), i < tbl.length := by
    intro i hi
    have := (npArgsort_perm (tbl.map Row.time)).mem_iff.mp hi
    rw [List.length_map] at this
    simpa [List.mem_range] using this
  refine hs.imp_of_mem ?_
  intro i j hi hj hR
  have hi' := hmem i hi
  have hj' := hmem j hj
  rw [getD_eq_getElem_of_lt _ _ (by simpa using hi'),
    getD_eq_getElem_of_lt _ _ (by simpa using hj')] at hR
  simp only [List.getElem_map] at hR
  rw [getD_eq_getElem_of_lt _ _ hi', getD_eq_getElem_of_lt _ _ hj']
  exact hR

/-- The added column is exactly `1..N` in order. -/
theorem process_counts (tbl : Table) :
    (process_data tbl).counts = (List.range (process_data tbl).recs.length).map (· + 1) :=
  rfl

/-! ## String.join character accounting -/

theorem foldl_append_data (ls : List String) :
    ∀ acc : String, (ls.foldl (fun r s => r ++ s) acc).data
      = acc.data ++ (ls.map String.data).flatten := by
  induction ls with
  | nil => intro acc; simp
  | cons s rest ih =>
    intro acc
    simp only [List.foldl_cons, List.map_cons, List.flatten_cons]
    rw [ih, String.data_append, List.append_assoc]

theorem data_join (ls : List String) :
    (String.join ls).data = (ls.map String.data).flatten := by
  have h := foldl_append_data ls ""
  simpa [String.join] using h

theorem sum_map_one {α : Type} (l : List α) (f : α → ℕ) (h : ∀ x ∈ l, f x = 1) :
    (l.map f).sum = l.length := by
  induction l with
  | nil => rfl
  | cons x rest ih =>
    simp only [List.map_cons, List.sum_cons, List.length_cons]
    rw [h x (by simp), ih (fun y hy => h y (List.mem_cons_of_mem _ hy))]
    omega

theorem count_newline_join (lines : List String)
    (h : ∀ s ∈ lines, s.data.count '\n' = 1) :
    (String.join lines).data.count '\n' = lines.length := by
  rw [data_join, List.count_flatten, List.map_map]
  exact sum_map_one lines _ h

theorem count_newline_line (t c : ℚ) :
    (fmt62 t ++ " " ++ fmt62 c ++ "\n").data.count '\n' = 1 := by
  simp only [String.data_append]
  rw [List.count_append, List.count_append, List.count_append]
  have h1 : (fmt62 t).data.count '\n' = 0 :=
    List.count_eq_zero.mpr (fun h => fmt62_ne_newline t '\n' h rfl)
  have h2 : (fmt62 c).data.count '\n' = 0 :=
    List.count_eq_zero.mpr (fun h => fmt62_ne_newline c '\n' h rfl)
  rw [h1, h2]
  decide

/-! ## Claims C1–C3 -/

/-- C1: the loader retains exactly the parsed rows with
`time(ns) > time_offset` (strict); a row with `time = time_offset` is
excluded from the table, from the processed table and from the exported
series. -/
theorem claim_C1 (content : String) (T : ℚ) (tbl : Table)
    (hload : load_data content T = .ok tbl) :
    (∀ r ∈ tbl, T < r.time) ∧
    (∃ header rows ti ri recs,
      tokenizedRows content = header :: rows ∧
      header.findIdx? (· = "time(ns)") = some ti ∧
      header.findIdx? (· = "resid") = some ri ∧
      rows.mapM (fun r => (parseRat (r.getD ti "")).map
        (fun t => Row.mk t (r.getD ri ""))) = some recs ∧
      tbl = recs.filter (fun r => decide (T < r.time))) ∧
    (∀ r ∈ (process_data tbl).recs, T < r.time ∧ r.time ≠ T) ∧
    (∀ p ∈ ((process_data tbl).recs.map Row.time).zip (process_data tbl).counts,
      T < p.1) := by
  obtain ⟨header, rows, ti, ri, recs, htok, hlen, hti, hri, hmap, htbl⟩ := load_data_ok hload
  have hmem : ∀ r ∈ tbl, T < r.time := by
    intro r hr
    rw [htbl] at hr
    have := List.of_mem_filter hr
    simpa using this
  have hproc : ∀ r ∈ (process_data tbl).recs, T < r.time ∧ r.time ≠ T := by
    intro r hr
    have hrt := hmem r ((process_recs_perm tbl).mem_iff.mp hr)
    exact ⟨hrt, by intro h; rw [h] at hrt; exact lt_irrefl T hrt⟩
  refine ⟨hmem, ⟨header, rows, ti, ri, recs, htok, hti, hri, hmap, htbl⟩, hproc, ?_⟩
  intro p hp
  have hp1 := (List.of_mem_zip hp).1
  obtain ⟨r, hr, hrt⟩ := List.mem_map.mp hp1
  rw [← hrt]
  exact (hproc r hr).1

theorem claim_C1_witness :
    load_data "time(ns) resid\n5 10\n2 20\n3 7\n" 3 = .ok [⟨mkRat 5 1, "10"⟩] ∧
    ((∀ r ∈ ([⟨mkRat 5 1, "10"⟩] : Table), (3 : ℚ) < r.time) ∧
     (∃ header rows ti ri recs,
       tokenizedRows "time(ns) resid\n5 10\n2 20\n3 7\n" = header :: rows ∧
       header.findIdx? (· = "time(ns)") = some ti ∧
       header.findIdx? (· = "resid") = some ri ∧
       rows.mapM (fun r => (parseRat (r.getD ti "")).map
         (fun t => Row.mk t (r.getD ri ""))) = some recs ∧
       ([⟨mkRat 5 1, "10"⟩] : Table) = recs.filter (fun r => decide ((3 : ℚ) < r.time))) ∧
     (∀ r ∈ (process_data [⟨mkRat 5 1, "10"⟩]).recs, (3 : ℚ) < r.time ∧ r.time ≠ 3) ∧
     (∀ p ∈ ((process_data [⟨mkRat 5 1, "10"⟩]).recs.map Row.time).zip
        (process_data [⟨mkRat 5 1, "10"⟩]).counts, (3 : ℚ) < p.1)) :=
  ⟨by decide, claim_C1 "time(ns) resid\n5 10\n2 20\n3 7\n" 3 [⟨mkRat 5 1, "10"⟩] (by decide)⟩

/-- C2: the cumulative column is exactly `1..N` (no gaps, no repeats),
strictly increasing by one per row, and the processed table is
non-decreasing in time. -/
theorem claim_C2 (tbl : Table) :
    (process_data tbl).counts = (List.range tbl.length).map (· + 1) ∧
    (process_data tbl).counts.length = tbl.length ∧
    (∀ i, i < tbl.length → (process_data tbl).counts.getD i 0 = i + 1) ∧
    (∀ i, i + 1 < tbl.length →
      (process_data tbl).counts.getD (i + 1) 0 = (process_data tbl).counts.getD i 0 + 1) ∧
    (process_data tbl).recs.Pairwise (fun x y => x.time ≤ y.time) := by
  have hlen : (process_data tbl).recs.length = tbl.length :=
    (process_recs_perm tbl).length_eq
  have hcounts : (process_data tbl).counts = (List.range tbl.length).map (· + 1) := by
    rw [process_counts, hlen]
  have hgetD : ∀ i, i < tbl.length → (process_data tbl).counts.getD i 0 = i + 1 := by
    intro i hi
    rw [hcounts, getD_eq_getElem_of_lt _ _ (by simpa using hi), List.getElem_map,
      List.getElem_range]
  refine ⟨hcounts, by rw [hcounts]; simp, hgetD, ?_, process_times_sorted tbl⟩
  intro i hi
  rw [hgetD i (by omega), hgetD (i + 1) hi]

/-- C3 counterexample: on a 17-row table whose times are all equal, the
default `sort_values` quicksort permutes the rows, so two equal-time
rows do not keep their original relative order (the row with resid `1`
precedes the one with resid `14` in the input but follows it in the
processed table). -/
theorem claim_C3_counterexample :
    (∀ r ∈ (List.range 17).map (fun i => Row.mk 1 (natStr i)), r.time = 1) ∧
    (process_data ((List.range 17).map (fun i => Row.mk 1 (natStr i)))).recs.map Row.resid ≠
      ((List.range 17).map (fun i => Row.mk 1 (natStr i))).map Row.resid ∧
    ((List.range 17).map (fun i => Row.mk 1 (natStr i))).getD 1 (Row.mk 0 "") =
      Row.mk 1 "1" ∧
    ((List.range 17).map (fun i => Row.mk 1 (natStr i))).getD 14 (Row.mk 0 "") =
      Row.mk 1 "14" ∧
    (process_data ((List.range 17).map (fun i => Row.mk 1 (natStr i)))).recs.getD 1
      (Row.mk 0 "") = Row.mk 1 "14" ∧
    (process_data ((List.range 17).map (fun i => Row.mk 1 (natStr i)))).recs.getD 14
      (Row.mk 0 "") = Row.mk 1 "1" := by
  refine ⟨?_, by decide, by decide, by decide, by decide, by decide⟩
  intro r hr
  obtain ⟨i, _, rfl⟩ := List.mem_map.mp hr
  rfl

/-- C3 (amended): the processor sorts the rows ascending by time and the
processed rows are exactly a permutation of the filtered rows, but the
relative order of equal-time rows is implementation-defined (numpy's
introsort) and is not guaranteed to be the input order. -/
theorem claim_C3 (tbl : Table) :
    (process_data tbl).recs.Perm tbl ∧
    (process_data tbl).recs.Pairwise (fun x y => x.time ≤ y.time) :=
  ⟨process_recs_perm tbl, process_times_sorted tbl⟩

/-! ## Claims C4–C5 -/

/-- C4: on a successful run the numeric exporter output is the file
`<dir>/permeation_cumul_<flag>.xvg` whose content is the concatenation,
in processed-table order, of one `"{time:6.2f} {count:6.2f}\n"` line per
row; the content has exactly one newline per row of the filtered table,
and the processed rows are in non-decreasing time order. -/
theorem claim_C4 (fs : FS) (a : Args) (content : String) (tbl : Table)
    (hfs : fs a.csv_file = some content) (hflag : a.flag ≠ "")
    (hload : load_data content a.time_offset = .ok tbl) :
    ∃ files, main fs a = .ok files ∧
      ((if a.output_dir = "" then "." else a.output_dir) ++ "/permeation_cumul_"
          ++ a.flag ++ ".xvg",
        FileData.text (String.join
          (((process_data tbl).recs.zip (process_data tbl).counts).map
            (fun rc => fmt62 rc.1.time ++ " " ++ fmt62 (rc.2 : ℚ) ++ "\n")))) ∈ files ∧
      (String.join
          (((process_data tbl).recs.zip (process_data tbl).counts).map
            (fun rc => fmt62 rc.1.time ++ " " ++ fmt62 (rc.2 : ℚ) ++ "\n"))).data.count '\n'
        = tbl.length ∧
      ((process_data tbl).recs.zip (process_data tbl).counts).length = tbl.length ∧
      (process_data tbl).counts = (List.range tbl.length).map (· + 1) ∧
      (process_data tbl).recs.Pairwise (fun x y => x.time ≤ y.time) := by
  have hlenr : (process_data tbl).recs.length = tbl.length :=
    (process_recs_perm tbl).length_eq
  have hlenc : (process_data tbl).counts.length = tbl.length := by
    rw [process_counts, List.length_map, List.length_range, hlenr]
  have hcontent : (save_xvg (process_data tbl) a.flag
      (if a.output_dir = "" then "." else a.output_dir)).2 =
      String.join (((process_data tbl).recs.zip (process_data tbl).counts).map
        (fun rc => fmt62 rc.1.time ++ " " ++ fmt62 (rc.2 : ℚ) ++ "\n")) := by
    simp only [save_xvg, List.zip_map_left, List.map_map]
    rfl
  have hziplen : ((process_data tbl).recs.zip (process_data tbl).counts).length
      = tbl.length := by
    rw [List.length_zip, hlenr, hlenc, Nat.min_self]
  refine ⟨_, main_ok_of_load hfs hflag hload, ?_, ?_, hziplen, ?_, process_times_sorted tbl⟩
  · have hpath : (save_xvg (process_data tbl) a.flag
        (if a.output_dir = "" then "." else a.output_dir)).1 =
        (if a.output_dir = "" then "." else a.output_dir) ++ "/permeation_cumul_"
          ++ a.flag ++ ".xvg" := rfl
    rw [← hpath, ← hcontent]
    exact List.mem_cons_of_mem _ (List.mem_cons_of_mem _ (List.mem_cons_self _ _))
  · rw [count_newline_join, List.length_map, hziplen]
    intro s hs
    obtain ⟨rc, _, hrc⟩ := List.mem_map.mp hs
    rw [← hrc]
    exact count_newline_line _ _
  · rw [process_counts, hlenr]

theorem claim_C4_witness :
    ∃ files,
      main (fun s => if s = "in.csv" then some "time(ns) resid\n5 10\n2 20\n" else none)
        ⟨"in.csv", "pore", 0, ""⟩ = .ok files ∧
      ((if ("" : String) = "" then "." else "") ++ "/permeation_cumul_"
          ++ "pore" ++ ".xvg",
        FileData.text (String.join
          (((process_data [⟨mkRat 5 1, "10"⟩, ⟨mkRat 2 1, "20"⟩]).recs.zip
              (process_data [⟨mkRat 5 1, "10"⟩, ⟨mkRat 2 1, "20"⟩]).counts).map
            (fun rc => fmt62 rc.1.time ++ " " ++ fmt62 (rc.2 : ℚ) ++ "\n")))) ∈ files ∧
      (String.join
          (((process_data [⟨mkRat 5 1, "10"⟩, ⟨mkRat 2 1, "20"⟩]).recs.zip
              (process_data [⟨mkRat 5 1, "10"⟩, ⟨mkRat 2 1, "20"⟩]).counts).map
            (fun rc => fmt62 rc.1.time ++ " " ++ fmt62 (rc.2 : ℚ) ++ "\n"))).data.count '\n'
        = ([⟨mkRat 5 1, "10"⟩, ⟨mkRat 2 1, "20"⟩] : Table).length ∧
      ((process_data [⟨mkRat 5 1, "10"⟩, ⟨mkRat 2 1, "20"⟩]).recs.zip
          (process_data [⟨mkRat 5 1, "10"⟩, ⟨mkRat 2 1, "20"⟩]).counts).length
        = ([⟨mkRat 5 1, "10"⟩, ⟨mkRat 2 1, "20"⟩] : Table).length ∧
      (process_data [⟨mkRat 5 1, "10"⟩, ⟨mkRat 2 1, "20"⟩]).counts
        = (List.range ([⟨mkRat 5 1, "10"⟩, ⟨mkRat 2 1, "20"⟩] : Table).length).map (· + 1) ∧
      (process_data [⟨mkRat 5 1, "10"⟩, ⟨mkRat 2 1, "20"⟩]).recs.Pairwise
        (fun x y => x.time ≤ y.time) :=
  claim_C4 (fun s => if s = "in.csv" then some "time(ns) resid\n5 10\n2 20\n" else none)
    ⟨"in.csv", "pore", 0, ""⟩ "time(ns) resid\n5 10\n2 20\n"
    [⟨mkRat 5 1, "10"⟩, ⟨mkRat 2 1, "20"⟩] (by decide) (by decide) (by decide)

/-- C5: on a successful run the selection exporter output is the file
`<dir>/permeation_selec_<flag>.sel` whose content is the literal prefix
`resname SOL TIP3 and resid ` followed by the space-joined `resid`
values in processed-table order; the listed resids are exactly the
filtered table's resids as a multiset (duplicates preserved), one per
row, and the content holds no newline (single line). -/
theorem claim_C5 (fs : FS) (a : Args) (content : String) (tbl : Table)
    (hfs : fs a.csv_file = some content) (hflag : a.flag ≠ "")
    (hload : load_data content a.time_offset = .ok tbl) :
    ∃ files, main fs a = .ok files ∧
      ((if a.output_dir = "" then "." else a.output_dir) ++ "/permeation_selec_"
          ++ a.flag ++ ".sel",
        FileData.text ("resname SOL TIP3 and resid "
          ++ list2str ((process_data tbl).recs.map Row.resid))) ∈ files ∧
      ((process_data tbl).recs.map Row.resid).Perm (tbl.map Row.resid) ∧
      ((process_data tbl).recs.map Row.resid).length = tbl.length ∧
      (∀ c ∈ ("resname SOL TIP3 and resid "
          ++ list2str ((process_data tbl).recs.map Row.resid)).data, c ≠ '\n') := by
  have hperm : (process_data tbl).recs.Perm tbl := process_recs_perm tbl
  refine ⟨_, main_ok_of_load hfs hflag hload, ?_, hperm.map Row.resid, ?_, ?_⟩
  · exact List.mem_cons_of_mem _ (List.mem_cons_of_mem _
      (List.mem_cons_of_mem _ (List.mem_cons_self _ _)))
  · rw [List.length_map, hperm.length_eq]
  · intro c hc
    rw [String.data_append] at hc
    rcases List.mem_append.mp hc with h | h
    · have hpre : ∀ x ∈ ("resname SOL TIP3 and resid ").data, x ≠ '\n' := by decide
      exact hpre c h
    · refine list2str_ne_newline _ ?_ c h
      intro s hs c' hc'
      obtain ⟨r, hr, hrs⟩ := List.mem_map.mp hs
      have hrt : r ∈ tbl := hperm.mem_iff.mp hr
      have := (load_resid_token hload r hrt).2 c' (by rw [hrs]; exact hc')
      exact this.2

theorem claim_C5_witness :
    ∃ files,
      main (fun s => if s = "lip.csv" then some "time(ns) resid\n5 10\n2 20\n" else none)
        ⟨"lip.csv", "memb", 0, ""⟩ = .ok files ∧
      ((if ("" : String) = "" then "." else "") ++ "/permeation_selec_"
          ++ "memb" ++ ".sel",
        FileData.text ("resname SOL TIP3 and resid "
          ++ list2str ((process_data [⟨mkRat 5 1, "10"⟩, ⟨mkRat 2 1, "20"⟩]).recs.map
            Row.resid))) ∈ files ∧
      ((process_data [⟨mkRat 5 1, "10"⟩, ⟨mkRat 2 1, "20"⟩]).recs.map Row.resid).Perm
        (([⟨mkRat 5 1, "10"⟩, ⟨mkRat 2 1, "20"⟩] : Table).map Row.resid) ∧
      ((process_data [⟨mkRat 5 1, "10"⟩, ⟨mkRat 2 1, "20"⟩]).recs.map Row.resid).length
        = ([⟨mkRat 5 1, "10"⟩, ⟨mkRat 2 1, "20"⟩] : Table).length ∧
      (∀ c ∈ ("resname SOL TIP3 and resid "
          ++ list2str ((process_data [⟨mkRat 5 1, "10"⟩, ⟨mkRat 2 1, "20"⟩]).recs.map
            Row.resid)).data, c ≠ '\n') :=
  claim_C5 (fun s => if s = "lip.csv" then some "time(ns) resid\n5 10\n2 20\n" else none)
    ⟨"lip.csv", "memb", 0, ""⟩ "time(ns) resid\n5 10\n2 20\n"
    [⟨mkRat 5 1, "10"⟩, ⟨mkRat 2 1, "20"⟩] (by decide) (by decide) (by decide)

end PermLip
